import Mathlib

/- Verification development for a classical state-vector quantum-circuit simulator.

   The simulator stores the 2^n complex amplitudes of an n-qubit system
   (qubit k is bit k of a basis-state index) and applies gates in place:
   Hadamard, Pauli-X, CNOT, SWAP, Toffoli, PhaseShift and a controlled
   modular-multiplication gate, plus a ripple-carry adder, an equality
   comparator, and a modular-exponentiation driver built from them.

   Amplitudes are modelled as functions ℕ → ℂ (entries at indices ≥ 2^n are
   irrelevant and left untouched); the double-precision arithmetic of the
   source is idealized as exact real/complex arithmetic.  Every gate of the
   source snapshots the old vector and writes a fresh one; the model hence
   maps an amplitude function to a new amplitude function.  Fallible
   operations (constructor validation, apply-time validation) return the
   error alongside the state reached when the error is raised. -/

noncomputable section

/-- Error kinds of the simulator: `std::invalid_argument` and `std::out_of_range`. -/
inductive SimErr where
  | invalidArgument
  | outOfRange
deriving DecidableEq, Repr

/-- Amplitude store: one complex amplitude per basis-state index. -/
abbrev Amps := ℕ → ℂ

/-- The constant `INV_SQRT2` of `HadamardGate` (the literal 0.70710678118654752440),
idealized as the exact real number 1/√2. -/
def invSqrt2 : ℝ := (Real.sqrt 2)⁻¹

/-- `HadamardGate::apply`: for every pair of indices differing only in bit `target`
(`i` with the bit clear, `j = i ^ mask` with it set), the new amplitudes are
`(a i + a j)·(1/√2)` at `i` and `(a i - a j)·(1/√2)` at `j`.  The loop writes every
index below `2^n` exactly once. -/
def hApply (n target : ℕ) (a : Amps) : Amps := fun i =>
  if i < 2 ^ n then
    if i &&& 1 <<< target = 0 then (a i + a (i ^^^ 1 <<< target)) * (invSqrt2 : ℂ)
    else (a (i ^^^ 1 <<< target) - a i) * (invSqrt2 : ℂ)
  else a i

/-- `XGate::apply`: swaps the amplitudes of each index pair differing only in bit
`target`, i.e. the new amplitude at `i` is the old amplitude at `i ^ mask`. -/
def xApply (n target : ℕ) (a : Amps) : Amps := fun i =>
  if i < 2 ^ n then a (i ^^^ 1 <<< target) else a i

/-- `CNOTGate::apply`: starting from a copy of the old vector, for every index `i`
with bit `control` set the loop writes the old amplitude of `i` at `j = i ^ targetMask`.
Since `j ↦ j ^ targetMask` is an involution on the indices with the control bit set
(the target mask does not touch the control bit), every such index is written exactly
once, giving the pointwise form below. -/
def cnotApply (n control target : ℕ) (a : Amps) : Amps := fun i =>
  if i < 2 ^ n then (if i &&& 1 <<< control ≠ 0 then a (i ^^^ 1 <<< target) else a i)
  else a i

/-- `SWAPGate::apply`: for every index whose bits `q1` and `q2` differ, the loop
writes at `i` the old amplitude of the index with both bits flipped. -/
def swapApply (n q1 q2 : ℕ) (a : Amps) : Amps := fun i =>
  if i < 2 ^ n then
    (if (i &&& 1 <<< q1 ≠ 0) ↔ (i &&& 1 <<< q2 ≠ 0) then a i
     else a (i ^^^ 1 <<< q1 ^^^ 1 <<< q2))
  else a i

/-- `ToffoliGate::apply`: like CNOT with two control bits; for every index with both
control bits set the new amplitude is the old amplitude of the index with the target
bit flipped (the destination map is an involution on that set of indices). -/
def toffApply (n c1 c2 target : ℕ) (a : Amps) : Amps := fun i =>
  if i < 2 ^ n then
    (if i &&& 1 <<< c1 ≠ 0 ∧ i &&& 1 <<< c2 ≠ 0 then a (i ^^^ 1 <<< target) else a i)
  else a i

/-- `PhaseShiftGate::apply`: multiplies the amplitude of every index with bit
`target` set by the phase factor `cos(angle) + i·sin(angle)`. -/
def psApply (n target : ℕ) (angle : ℝ) (a : Amps) : Amps := fun i =>
  if i < 2 ^ n then
    (if i &&& 1 <<< target ≠ 0 then a i * ⟨Real.cos angle, Real.sin angle⟩ else a i)
  else a i

/-- `ControlledModMultGate::extractTarget`: the `tCount`-bit field of `i` starting
at bit `tStart`, read as an unsigned value. -/
def extractTarget (tStart tCount i : ℕ) : ℕ := (i >>> tStart) &&& (1 <<< tCount - 1)

/-- The `state_index & ~mask` step of `ControlledModMultGate::replaceTarget` with
`mask = (2^tCount − 1) << tStart`: the target-field bits of `i` are cleared.  On ℕ
the and-not is expressed by removing the common bits with xor. -/
def clearTarget (tStart tCount i : ℕ) : ℕ := i ^^^ (i &&& ((1 <<< tCount - 1) <<< tStart))

/-- `ControlledModMultGate::replaceTarget`: clears the target field of `i` and ors
in the new field value `y` shifted into place. -/
def replaceTarget (tStart tCount i y : ℕ) : ℕ := clearTarget tStart tCount i ||| (y <<< tStart)

/-- The destination index computed by one iteration of `ControlledModMultGate::apply`
for a source index `i` with the control bit set: the target field value `y` is
replaced by `(mult · y) mod md`. -/
def cmmDest (tStart tCount mult md i : ℕ) : ℕ :=
  replaceTarget tStart tCount i ((mult * extractTarget tStart tCount i) % md)

/-- The write loop of `ControlledModMultGate::apply`: starting from a copy of the old
vector, for `i = 0, 1, …, 2^n − 1` in increasing order, if the control bit of `i` is
set then the old amplitude at `i` is written at `cmmDest … i` (a later iteration
overwrites an earlier one on collision, exactly as in the source). -/
def cmmWrites (n control tStart tCount mult md : ℕ) (a : Amps) : Amps :=
  (List.range (2 ^ n)).foldl
    (fun acc i =>
      if i &&& 1 <<< control ≠ 0 then
        Function.update acc (cmmDest tStart tCount mult md i) (a i)
      else acc) a

/-- `ControlledModMultGate::apply` after validation: the final copy-back loop writes
only indices below `2^n` into the store. -/
def cmmApply (n control tStart tCount mult md : ℕ) (a : Amps) : Amps := fun i =>
  if i < 2 ^ n then cmmWrites n control tStart tCount mult md a i else a i

/-- Gate descriptors as validated by the constructors (fields are the stored,
already-nonnegative qubit indices and parameters). -/
inductive PrimGate where
  | hadamard (target : ℕ)
  | pauliX (target : ℕ)
  | cnot (control target : ℕ)
  | swapg (q1 q2 : ℕ)
  | toffoli (c1 c2 target : ℕ)
  | phaseShift (target : ℕ) (angle : ℝ)
  | cmm (control tStart tCount mult md : ℕ)

/-- `HadamardGate` constructor: rejects a negative target. -/
def mkHadamard (target : ℤ) : Except SimErr PrimGate :=
  if target < 0 then .error .invalidArgument else .ok (.hadamard target.toNat)

/-- `XGate` constructor: rejects a negative target. -/
def mkXGate (target : ℤ) : Except SimErr PrimGate :=
  if target < 0 then .error .invalidArgument else .ok (.pauliX target.toNat)

/-- `CNOTGate` constructor: rejects negative indices and `control == target`. -/
def mkCNOT (control target : ℤ) : Except SimErr PrimGate :=
  if control < 0 ∨ target < 0 then .error .invalidArgument
  else if control = target then .error .invalidArgument
  else .ok (.cnot control.toNat target.toNat)

/-- `SWAPGate` constructor: rejects negative indices and `q1 == q2`. -/
def mkSWAP (q1 q2 : ℤ) : Except SimErr PrimGate :=
  if q1 < 0 ∨ q2 < 0 then .error .invalidArgument
  else if q1 = q2 then .error .invalidArgument
  else .ok (.swapg q1.toNat q2.toNat)

/-- `ToffoliGate` constructor: rejects negative indices, a target equal to either
control, and equal controls. -/
def mkToffoli (c1 c2 target : ℤ) : Except SimErr PrimGate :=
  if c1 < 0 ∨ c2 < 0 ∨ target < 0 then .error .invalidArgument
  else if c1 = target ∨ c2 = target then .error .invalidArgument
  else if c1 = c2 then .error .invalidArgument
  else .ok (.toffoli c1.toNat c2.toNat target.toNat)

/-- `PhaseShiftGate` constructor: rejects a negative target. -/
def mkPhaseShift (target : ℤ) (angle : ℝ) : Except SimErr PrimGate :=
  if target < 0 then .error .invalidArgument else .ok (.phaseShift target.toNat angle)

/-- `ControlledModMultGate` constructor: rejects negative control/start, non-positive
count, zero multiplier or modulus, and a control lying inside the target field. -/
def mkCMM (control tStart tCount : ℤ) (mult md : ℕ) : Except SimErr PrimGate :=
  if control < 0 ∨ tStart < 0 ∨ tCount ≤ 0 then .error .invalidArgument
  else if mult = 0 ∨ md = 0 then .error .invalidArgument
  else if tStart ≤ control ∧ control < tStart + tCount then .error .invalidArgument
  else .ok (.cmm control.toNat tStart.toNat tCount.toNat mult md)

/-- Apply-time behaviour of each gate against a store of `n` qubits: the validation
of the source's `apply` runs first and, on failure, the store is returned untouched
together with the raised error; otherwise the transformed store is returned. -/
def applyChecked (g : PrimGate) (n : ℕ) (a : Amps) : Amps × Option SimErr :=
  match g with
  | .hadamard t => if t ≥ n then (a, some .invalidArgument) else (hApply n t a, none)
  | .pauliX t => if t ≥ n then (a, some .invalidArgument) else (xApply n t a, none)
  | .cnot c t =>
      if c ≥ n ∨ t ≥ n then (a, some .invalidArgument) else (cnotApply n c t a, none)
  | .swapg q1 q2 =>
      if q1 ≥ n ∨ q2 ≥ n then (a, some .invalidArgument) else (swapApply n q1 q2 a, none)
  | .toffoli c1 c2 t =>
      if c1 ≥ n ∨ c2 ≥ n ∨ t ≥ n then (a, some .invalidArgument)
      else (toffApply n c1 c2 t a, none)
  | .phaseShift t ang => if t ≥ n then (a, some .invalidArgument) else (psApply n t ang a, none)
  | .cmm c ts tc mult md =>
      if c ≥ n then (a, some .invalidArgument)
      else if ts + tc > n then (a, some .invalidArgument)
      else (cmmApply n c ts tc mult md a, none)

/-- `QuantumState::QuantumState(n)`: fails for `n ≤ 0`, otherwise allocates `2^n`
amplitudes initialized to the basis state `|0…0⟩`. -/
def allocate (n : ℤ) : Except SimErr Amps :=
  if n ≤ 0 then .error .invalidArgument
  else .ok (fun i => if i = 0 then 1 else 0)

/-- `QuantumState::getAmplitude`: fails with `out_of_range` for an index outside
`[0, 2^n)`. -/
def getAmplitude (n : ℕ) (a : Amps) (index : ℤ) : Except SimErr ℂ :=
  if index < 0 ∨ (2 ^ n : ℤ) ≤ index then .error .outOfRange else .ok (a index.toNat)

/-- `QuantumState::setAmplitude`: fails with `out_of_range` for an index outside
`[0, 2^n)`, otherwise overwrites that entry. -/
def setAmplitude (n : ℕ) (a : Amps) (index : ℤ) (v : ℂ) : Except SimErr Amps :=
  if index < 0 ∨ (2 ^ n : ℤ) ≤ index then .error .outOfRange
  else .ok (Function.update a index.toNat v)

/-- Runs a sequence of gate constructions and applications in order, as the
composite circuits do: each gate is constructed immediately before its application,
and a failure (from a constructor or from apply-time validation) stops the run,
keeping every mutation made so far. -/
def runChecked (n : ℕ) : List (Except SimErr PrimGate) → Amps → Amps × Option SimErr
  | [], a => (a, none)
  | .error e :: _, a => (a, some e)
  | .ok g :: rest, a =>
      match applyChecked g n a with
      | (a', none) => runChecked n rest a'
      | (a', some e) => (a', some e)

/-- The gate sequence of `QuantumAdder::apply`: per bit `i`, three Toffolis
accumulate `MAJ(a_i, b_i, carry_i)` into `carry_{i+1}`, then two CNOTs set the sum
bit `b_i ^= a_i; b_i ^= carry_i`. -/
def adderGateList (aS bS cS nb : ℕ) : List (Except SimErr PrimGate) :=
  (List.range nb).flatMap (fun i =>
    [mkToffoli ((aS + i : ℕ) : ℤ) ((bS + i : ℕ) : ℤ) ((cS + i + 1 : ℕ) : ℤ),
     mkToffoli ((aS + i : ℕ) : ℤ) ((cS + i : ℕ) : ℤ) ((cS + i + 1 : ℕ) : ℤ),
     mkToffoli ((bS + i : ℕ) : ℤ) ((cS + i : ℕ) : ℤ) ((cS + i + 1 : ℕ) : ℤ),
     mkCNOT ((aS + i : ℕ) : ℤ) ((bS + i : ℕ) : ℤ),
     mkCNOT ((cS + i : ℕ) : ℤ) ((bS + i : ℕ) : ℤ)])

/-- `QuantumAdder::apply`: validates the register extents against the store size,
then runs the ripple-carry gate sequence. -/
def adderApply (aS bS cS nb n : ℕ) (a : Amps) : Amps × Option SimErr :=
  if aS + nb > n ∨ bS + nb > n ∨ cS + nb + 1 > n then (a, some .invalidArgument)
  else runChecked n (adderGateList aS bS cS nb) a

/-- The gate sequence of `QuantumComparator::apply`: an X initializing
`result[0] = 1`, then per bit `i` a CNOT and an X turning `b_i` into the equality
indicator of `a_i` and `b_i`, and a Toffoli propagating the chained AND into
`result[i+1]`. -/
def compGateList (aS bS rS nb : ℕ) : List (Except SimErr PrimGate) :=
  mkXGate (rS : ℤ) :: (List.range nb).flatMap (fun i =>
    [mkCNOT ((aS + i : ℕ) : ℤ) ((bS + i : ℕ) : ℤ),
     mkXGate ((bS + i : ℕ) : ℤ),
     mkToffoli ((bS + i : ℕ) : ℤ) ((rS + i : ℕ) : ℤ) ((rS + 1 + i : ℕ) : ℤ)])

/-- `QuantumComparator::apply`: validates the register extents against the store
size, then runs the comparison gate sequence. -/
def compApply (aS bS rS nb n : ℕ) (a : Amps) : Amps × Option SimErr :=
  if aS + nb > n ∨ bS + nb > n ∨ rS + nb + 1 > n then (a, some .invalidArgument)
  else runChecked n (compGateList aS bS rS nb)  a

/-- The target-register size computed by the modular-exponentiation driver: the bit
length of `modulus − 1`, with a minimum of 1. -/
def targetQubitsOf (md : ℕ) : ℕ := if Nat.size (md - 1) = 0 then 1 else Nat.size (md - 1)

/-- The multipliers precomputed by the driver: `powersOf base md i = base^(2^i) mod md`,
obtained by repeated squaring starting from `base % md`. -/
def powersOf (base md : ℕ) : ℕ → ℕ
  | 0 => base % md
  | i + 1 => powersOf base md i * powersOf base md i % md

/-- The driver's initial state: amplitude 1 at index `1 << num_qubits` (control
register 0, target register 1) and 0 elsewhere. -/
def orchInit (nq : ℕ) : Amps := fun i => if i = 1 <<< nq then 1 else 0

/-- The driver's gate sequence: a Hadamard on every control qubit, then one
controlled modular multiplication per control qubit `i` with multiplier
`powersOf base md i`. -/
def orchGateList (base md nq tq : ℕ) : List (Except SimErr PrimGate) :=
  (List.range nq).map (fun i => mkHadamard (i : ℕ)) ++
  (List.range nq).map (fun i => mkCMM (i : ℕ) (nq : ℕ) (tq : ℕ) (powersOf base md i) md)

/-- The whole driver run from `main`: `nq + targetQubits` qubits, initial state
`|control = 0⟩|target = 1⟩`, Hadamards, then the controlled multiplications. -/
def orchRun (base md nq : ℕ) : Amps × Option SimErr :=
  runChecked (nq + targetQubitsOf md) (orchGateList base md nq (targetQubitsOf md)) (orchInit nq)

/-- Basis state `|k⟩` as an amplitude vector. -/
def delta (k : ℕ) : Amps := fun i => if i = k then 1 else 0

/-- Total probability of a store of `n` qubits: the sum of the squared magnitudes
of all `2^n` amplitudes. -/
def totalProb (n : ℕ) (a : Amps) : ℝ :=
  ∑ i ∈ Finset.range (2 ^ n), Complex.normSq (a i)

/-- Index action of `XGate` on basis states. -/
def xIdx (t i : ℕ) : ℕ := i ^^^ 1 <<< t

/-- Index action of `CNOTGate` on basis states. -/
def cnotIdx (c t i : ℕ) : ℕ := if i &&& 1 <<< c ≠ 0 then i ^^^ 1 <<< t else i

/-- Index action of `ToffoliGate` on basis states. -/
def toffIdx (c1 c2 t i : ℕ) : ℕ :=
  if i &&& 1 <<< c1 ≠ 0 ∧ i &&& 1 <<< c2 ≠ 0 then i ^^^ 1 <<< t else i

lemma and_one_shiftLeft (i t : ℕ) : i &&& 1 <<< t ≠ 0 ↔ i.testBit t = true := by
  rw [Nat.one_shiftLeft, Nat.and_two_pow]
  cases h : i.testBit t <;> simp [h, (Nat.two_pow_pos t).ne']

lemma lt_two_pow_of_high_bits {x n : ℕ} (h : ∀ p, n ≤ p → x.testBit p = false) :
    x < 2 ^ n := by
  have hx : x = x % 2 ^ n := by
    apply Nat.eq_of_testBit_eq
    intro i
    rw [Nat.testBit_mod_two_pow]
    by_cases hi : i < n
    · simp [hi]
    · simp [hi, h i (Nat.le_of_not_lt hi)]
  rw [hx]
  exact Nat.mod_lt _ (Nat.two_pow_pos n)

lemma testBit_xor_shift (i t p : ℕ) :
    (i ^^^ 1 <<< t).testBit p = (i.testBit p ^^ decide (p = t)) := by
  rw [Nat.one_shiftLeft, Nat.testBit_xor]
  by_cases h : p = t
  · subst h; simp [Nat.testBit_two_pow_self]
  · simp [h, Nat.testBit_two_pow_of_ne (Ne.symm h)]

lemma xor_shift_lt {i t n : ℕ} (ht : t < n) (hi : i < 2 ^ n) : i ^^^ 1 <<< t < 2 ^ n := by
  apply lt_two_pow_of_high_bits
  intro p hp
  rw [testBit_xor_shift]
  have h1 : i.testBit p = false := Nat.testBit_lt_two_pow (lt_of_lt_of_le hi (Nat.pow_le_pow_right (by norm_num) hp))
  have h2 : p ≠ t := by omega
  simp [h1, h2]

lemma xIdx_testBit (t i p : ℕ) : (xIdx t i).testBit p = (i.testBit p ^^ decide (p = t)) :=
  testBit_xor_shift i t p

lemma cnotIdx_testBit (c t i p : ℕ) :
    (cnotIdx c t i).testBit p = (i.testBit p ^^ (decide (p = t) && i.testBit c)) := by
  unfold cnotIdx
  by_cases h : i.testBit c
  · rw [if_pos ((and_one_shiftLeft i c).mpr h), testBit_xor_shift]
    simp [h]
  · rw [if_neg (fun hc => h ((and_one_shiftLeft i c).mp hc))]
    simp [Bool.eq_false_iff.mpr h]

lemma toffIdx_testBit (c1 c2 t i p : ℕ) :
    (toffIdx c1 c2 t i).testBit p =
      (i.testBit p ^^ (decide (p = t) && (i.testBit c1 && i.testBit c2))) := by
  unfold toffIdx
  by_cases h1 : i.testBit c1
  · by_cases h2 : i.testBit c2
    · rw [if_pos ⟨(and_one_shiftLeft i c1).mpr h1, (and_one_shiftLeft i c2).mpr h2⟩,
        testBit_xor_shift]
      simp [h1, h2]
    · rw [if_neg (fun hc => h2 ((and_one_shiftLeft i c2).mp hc.2))]
      simp [Bool.eq_false_iff.mpr h2]
  · rw [if_neg (fun hc => h1 ((and_one_shiftLeft i c1).mp hc.1))]
    simp [Bool.eq_false_iff.mpr h1]

lemma xIdx_involutive (t : ℕ) : Function.Involutive (xIdx t) := fun i =>
  Nat.xor_cancel_right _ _

lemma cnotIdx_involutive {c t : ℕ} (h : c ≠ t) : Function.Involutive (cnotIdx c t) := by
  intro i
  unfold cnotIdx
  by_cases hc : i &&& 1 <<< c ≠ 0
  · rw [if_pos hc]
    have : (i ^^^ 1 <<< t) &&& 1 <<< c ≠ 0 := by
      rw [and_one_shiftLeft, testBit_xor_shift]
      rw [and_one_shiftLeft] at hc
      simp [hc, h]
    rw [if_pos this, Nat.xor_cancel_right]
  · rw [if_neg hc, if_neg hc]

lemma toffIdx_involutive {c1 c2 t : ℕ} (h1 : c1 ≠ t) (h2 : c2 ≠ t) :
    Function.Involutive (toffIdx c1 c2 t) := by
  intro i
  unfold toffIdx
  by_cases hc : i &&& 1 <<< c1 ≠ 0 ∧ i &&& 1 <<< c2 ≠ 0
  · rw [if_pos hc]
    have hc' : (i ^^^ 1 <<< t) &&& 1 <<< c1 ≠ 0 ∧ (i ^^^ 1 <<< t) &&& 1 <<< c2 ≠ 0 := by
      rw [and_one_shiftLeft, and_one_shiftLeft, testBit_xor_shift, testBit_xor_shift]
      rw [and_one_shiftLeft, and_one_shiftLeft] at hc
      simp [hc.1, hc.2, fun hh : c1 = t => h1 hh, fun hh : c2 = t => h2 hh]
    rw [if_pos hc', Nat.xor_cancel_right]
  · rw [if_neg hc, if_neg hc]

lemma xIdx_lt {t n i : ℕ} (ht : t < n) (hi : i < 2 ^ n) : xIdx t i < 2 ^ n :=
  xor_shift_lt ht hi

lemma cnotIdx_lt {c t n i : ℕ} (ht : t < n) (hi : i < 2 ^ n) : cnotIdx c t i < 2 ^ n := by
  unfold cnotIdx
  split
  · exact xor_shift_lt ht hi
  · exact hi

lemma toffIdx_lt {c1 c2 t n i : ℕ} (ht : t < n) (hi : i < 2 ^ n) :
    toffIdx c1 c2 t i < 2 ^ n := by
  unfold toffIdx
  split
  · exact xor_shift_lt ht hi
  · exact hi

lemma delta_apply (k i : ℕ) : delta k i = if i = k then 1 else 0 := rfl

/-- Applying a classical (basis-permuting) gate to a basis state gives the basis
state of the permuted index: generic form used for X, CNOT and Toffoli. -/
lemma apply_delta_of_idx {n k : ℕ} (F : Amps → Amps) (σ : ℕ → ℕ)
    (hF : ∀ a i, i < 2 ^ n → F a i = a (σ i)) (hF' : ∀ a i, ¬i < 2 ^ n → F a i = a i)
    (hσ : Function.Involutive σ) (hlt : ∀ i, i < 2 ^ n → σ i < 2 ^ n) (hk : k < 2 ^ n) :
    F (delta k) = delta (σ k) := by
  funext i
  by_cases hi : i < 2 ^ n
  · rw [hF _ _ hi]
    unfold delta
    by_cases he : σ i = k
    · rw [if_pos he, if_pos (by rw [← he, hσ i])]
    · rw [if_neg he, if_neg (fun hh => he (by rw [hh, hσ k]))]
  · rw [hF' _ _ hi]
    unfold delta
    rw [if_neg (fun hh : i = k => hi (hh ▸ hk)),
      if_neg (fun hh : i = σ k => hi (hh ▸ hlt k hk))]

lemma xApply_delta {n t k : ℕ} (ht : t < n) (hk : k < 2 ^ n) :
    xApply n t (delta k) = delta (xIdx t k) := by
  apply apply_delta_of_idx (n := n) _ _ _ _ (xIdx_involutive t) (fun i hi => xIdx_lt ht hi) hk
  · intro a i hi
    unfold xApply xIdx
    rw [if_pos hi]
  · intro a i hi
    unfold xApply
    rw [if_neg hi]

lemma cnotApply_delta {n c t k : ℕ} (ht : t < n) (hct : c ≠ t) (hk : k < 2 ^ n) :
    cnotApply n c t (delta k) = delta (cnotIdx c t k) := by
  apply apply_delta_of_idx (n := n) _ _ _ _ (cnotIdx_involutive hct)
    (fun i hi => cnotIdx_lt ht hi) hk
  · intro a i hi
    unfold cnotApply cnotIdx
    rw [if_pos hi]
    by_cases hc : i &&& 1 <<< c ≠ 0
    · rw [if_pos hc, if_pos hc]
    · rw [if_neg hc, if_neg hc]
  · intro a i hi
    unfold cnotApply
    rw [if_neg hi]

lemma toffApply_delta {n c1 c2 t k : ℕ} (ht : t < n) (h1 : c1 ≠ t) (h2 : c2 ≠ t)
    (hk : k < 2 ^ n) : toffApply n c1 c2 t (delta k) = delta (toffIdx c1 c2 t k) := by
  apply apply_delta_of_idx (n := n) _ _ _ _ (toffIdx_involutive h1 h2)
    (fun i hi => toffIdx_lt ht hi) hk
  · intro a i hi
    unfold toffApply toffIdx
    rw [if_pos hi]
    by_cases hc : i &&& 1 <<< c1 ≠ 0 ∧ i &&& 1 <<< c2 ≠ 0
    · rw [if_pos hc, if_pos hc]
    · rw [if_neg hc, if_neg hc]
  · intro a i hi
    unfold toffApply
    rw [if_neg hi]

lemma runChecked_nil (n : ℕ) (a : Amps) : runChecked n [] a = (a, none) := rfl

lemma runChecked_cons_eq (n : ℕ) (g : PrimGate) (rest : List (Except SimErr PrimGate))
    (a : Amps) :
    runChecked n (.ok g :: rest) a =
      match applyChecked g n a with
      | (a', none) => runChecked n rest a'
      | (a', some e) => (a', some e) := rfl

lemma runChecked_cons_ok (n : ℕ) (g : PrimGate) (rest : List (Except SimErr PrimGate))
    (a a' : Amps) (h : applyChecked g n a = (a', none)) :
    runChecked n (.ok g :: rest) a = runChecked n rest a' := by
  rw [runChecked_cons_eq, h]

/-- Index action of `SWAPGate` on basis states. -/
def swapIdx (q1 q2 i : ℕ) : ℕ :=
  if (i &&& 1 <<< q1 ≠ 0) ↔ (i &&& 1 <<< q2 ≠ 0) then i else i ^^^ 1 <<< q1 ^^^ 1 <<< q2

lemma and_shift_eq_zero_iff (i t : ℕ) : i &&& 1 <<< t = 0 ↔ i.testBit t = false := by
  rw [Nat.one_shiftLeft, Nat.and_two_pow]
  cases h : i.testBit t <;> simp [h, (Nat.two_pow_pos t).ne']

lemma and_shift_xor_ne {c t : ℕ} (h : c ≠ t) (i : ℕ) :
    ((i ^^^ 1 <<< t) &&& 1 <<< c ≠ 0) ↔ (i &&& 1 <<< c ≠ 0) := by
  rw [and_one_shiftLeft, and_one_shiftLeft, testBit_xor_shift]
  simp [h]

lemma and_shift_xor_self (i t : ℕ) :
    (i ^^^ 1 <<< t) &&& 1 <<< t = 0 ↔ ¬(i &&& 1 <<< t = 0) := by
  rw [and_shift_eq_zero_iff, and_shift_eq_zero_iff, testBit_xor_shift]
  cases h : i.testBit t <;> simp [h]

lemma xor_pair_cancel (i m1 m2 : ℕ) : i ^^^ m1 ^^^ m2 ^^^ m1 ^^^ m2 = i := by
  apply Nat.eq_of_testBit_eq
  intro p
  simp only [Nat.testBit_xor]
  cases i.testBit p <;> cases m1.testBit p <;> cases m2.testBit p <;> rfl

lemma swapIdx_involutive (q1 q2 : ℕ) : Function.Involutive (swapIdx q1 q2) := by
  intro i
  unfold swapIdx
  by_cases hc : (i &&& 1 <<< q1 ≠ 0) ↔ (i &&& 1 <<< q2 ≠ 0)
  · rw [if_pos hc, if_pos hc]
  · rw [if_neg hc]
    have hq : q1 ≠ q2 := by
      intro hq
      exact hc (hq ▸ Iff.rfl)
    have hc' : ¬(((i ^^^ 1 <<< q1 ^^^ 1 <<< q2) &&& 1 <<< q1 ≠ 0) ↔
        ((i ^^^ 1 <<< q1 ^^^ 1 <<< q2) &&& 1 <<< q2 ≠ 0)) := by
      rw [and_one_shiftLeft, and_one_shiftLeft] at hc ⊢
      rw [testBit_xor_shift, testBit_xor_shift, testBit_xor_shift, testBit_xor_shift]
      simp only [hq, Ne.symm hq, decide_eq_true_eq, decide_eq_false_iff_not]
      cases h1 : i.testBit q1 <;> cases h2 : i.testBit q2 <;> simp_all [hq, Ne.symm hq]
    rw [if_neg hc', xor_pair_cancel]

lemma swapIdx_lt {q1 q2 n i : ℕ} (h1 : q1 < n) (h2 : q2 < n) (hi : i < 2 ^ n) :
    swapIdx q1 q2 i < 2 ^ n := by
  unfold swapIdx
  split
  · exact hi
  · exact xor_shift_lt h2 (xor_shift_lt h1 hi)

lemma runChecked_append (n : ℕ) (l1 l2 : List (Except SimErr PrimGate)) (a : Amps) :
    runChecked n (l1 ++ l2) a =
      match runChecked n l1 a with
      | (a', none) => runChecked n l2 a'
      | (a', some e) => (a', some e) := by
  induction l1 generalizing a with
  | nil => rfl
  | cons hd tl ih =>
      match hd with
      | .error e => rfl
      | .ok g =>
          rw [List.cons_append, runChecked_cons_eq, runChecked_cons_eq]
          rcases hg : applyChecked g n a with ⟨a', e⟩
          cases e with
          | none => exact ih a'
          | some e' => rfl

/-- The invariants established by the gate constructors on the descriptors they
return (distinctness requirements and nonzero parameters). -/
def WellFormed : PrimGate → Prop
  | .cnot c t => c ≠ t
  | .swapg q1 q2 => q1 ≠ q2
  | .toffoli c1 c2 t => c1 ≠ t ∧ c2 ≠ t ∧ c1 ≠ c2
  | .cmm c ts tc mult md => 0 < tc ∧ mult ≠ 0 ∧ md ≠ 0 ∧ ¬(ts ≤ c ∧ c < ts + tc)
  | _ => True

/-- Marks the gate kinds other than the controlled modular multiplication. -/
def isBuiltinUnitary : PrimGate → Prop
  | .cmm _ _ _ _ _ => False
  | _ => True

lemma invSqrt2_mul_self : invSqrt2 * invSqrt2 = 1 / 2 := by
  unfold invSqrt2
  rw [← mul_inv, Real.mul_self_sqrt (by norm_num : (0 : ℝ) ≤ 2)]
  norm_num

lemma invSqrt2_sq_complex : (invSqrt2 : ℂ) * (invSqrt2 : ℂ) = 1 / 2 := by
  rw [← Complex.ofReal_mul, invSqrt2_mul_self]
  push_cast
  ring

lemma normSq_invSqrt2 : Complex.normSq (invSqrt2 : ℂ) = 1 / 2 := by
  rw [Complex.normSq_ofReal, invSqrt2_mul_self]

/-- C8.  `allocate` fails with InvalidArgument exactly for `n ≤ 0` and otherwise
yields amplitude 1 at index 0 and 0 elsewhere; `get`/`set` fail with OutOfRange
exactly for an index outside `[0, 2^n)`; each gate constructor fails with
InvalidArgument exactly for a negative qubit index, a violated distinctness
requirement (CNOT `control = target`, SWAP `q1 = q2`, Toffoli any two equal),
a non-positive target count, a zero multiplier or modulus, or a control qubit
inside the target field. -/
theorem c8_error_conditions :
    (∀ n : ℤ, allocate n = .error .invalidArgument ↔ n ≤ 0) ∧
    (∀ n : ℤ, 0 < n → allocate n = .ok (fun i => if i = 0 then 1 else 0)) ∧
    (∀ (n : ℕ) (a : Amps) (index : ℤ),
      getAmplitude n a index = .error .outOfRange ↔ (index < 0 ∨ (2 ^ n : ℤ) ≤ index)) ∧
    (∀ (n : ℕ) (a : Amps) (index : ℤ) (v : ℂ),
      setAmplitude n a index v = .error .outOfRange ↔ (index < 0 ∨ (2 ^ n : ℤ) ≤ index)) ∧
    (∀ t : ℤ, mkHadamard t = .error .invalidArgument ↔ t < 0) ∧
    (∀ t : ℤ, mkXGate t = .error .invalidArgument ↔ t < 0) ∧
    (∀ (t : ℤ) (ang : ℝ), mkPhaseShift t ang = .error .invalidArgument ↔ t < 0) ∧
    (∀ c t : ℤ, mkCNOT c t = .error .invalidArgument ↔ (c < 0 ∨ t < 0 ∨ c = t)) ∧
    (∀ q1 q2 : ℤ, mkSWAP q1 q2 = .error .invalidArgument ↔ (q1 < 0 ∨ q2 < 0 ∨ q1 = q2)) ∧
    (∀ c1 c2 t : ℤ, mkToffoli c1 c2 t = .error .invalidArgument ↔
      (c1 < 0 ∨ c2 < 0 ∨ t < 0 ∨ c1 = t ∨ c2 = t ∨ c1 = c2)) ∧
    (∀ (c ts tc : ℤ) (mult md : ℕ), mkCMM c ts tc mult md = .error .invalidArgument ↔
      (c < 0 ∨ ts < 0 ∨ tc ≤ 0 ∨ mult = 0 ∨ md = 0 ∨ (ts ≤ c ∧ c < ts + tc))) := by
  refine ⟨?_, ?_, ?_, ?_, ?_, ?_, ?_, ?_, ?_, ?_, ?_⟩
  · intro n
    unfold allocate
    split <;> simp_all
  · intro n hn
    unfold allocate
    rw [if_neg (by omega)]
  · intro n a index
    unfold getAmplitude
    split <;> simp_all
  · intro n a index v
    unfold setAmplitude
    split <;> simp_all
  · intro t
    unfold mkHadamard
    split <;> simp_all
  · intro t
    unfold mkXGate
    split <;> simp_all
  · intro t ang
    unfold mkPhaseShift
    split <;> simp_all
  · intro c t
    unfold mkCNOT
    split
    · simp_all
      tauto
    · split <;> simp_all <;> tauto
  · intro q1 q2
    unfold mkSWAP
    split
    · simp_all
      tauto
    · split <;> simp_all <;> tauto
  · intro c1 c2 t
    unfold mkToffoli
    split
    · simp_all
      tauto
    · split
      · simp_all
        tauto
      · split <;> simp_all <;> tauto
  · intro c ts tc mult md
    unfold mkCMM
    split
    · simp_all
      tauto
    · split
      · simp_all
        tauto
      · split <;> simp_all <;> tauto

/-- Witness for C8: allocating a positive number of qubits yields the `|0…0⟩`
amplitude vector. -/
theorem c8_error_conditions_witness :
    allocate 3 = .ok (fun i => if i = 0 then 1 else 0) :=
  c8_error_conditions.2.1 3 (by norm_num)

/-- C6.  PauliX, ControlledNot, SWAP and Toffoli are exactly self-inverse: applying
the same gate twice returns the original amplitude at every basis index. -/
theorem c6_self_inverse :
    (∀ (n t : ℕ) (a : Amps) (i : ℕ), t < n → i < 2 ^ n →
      xApply n t (xApply n t a) i = a i) ∧
    (∀ (n c t : ℕ) (a : Amps) (i : ℕ), c < n → t < n → c ≠ t → i < 2 ^ n →
      cnotApply n c t (cnotApply n c t a) i = a i) ∧
    (∀ (n q1 q2 : ℕ) (a : Amps) (i : ℕ), q1 < n → q2 < n → q1 ≠ q2 → i < 2 ^ n →
      swapApply n q1 q2 (swapApply n q1 q2 a) i = a i) ∧
    (∀ (n c1 c2 t : ℕ) (a : Amps) (i : ℕ), c1 < n → c2 < n → t < n → c1 ≠ t → c2 ≠ t →
      i < 2 ^ n → toffApply n c1 c2 t (toffApply n c1 c2 t a) i = a i) := by
  refine ⟨?_, ?_, ?_, ?_⟩
  · intro n t a i ht hi
    unfold xApply
    rw [if_pos hi, if_pos (xor_shift_lt ht hi), Nat.xor_cancel_right]
  · intro n c t a i hc ht hct hi
    unfold cnotApply
    rw [if_pos hi]
    by_cases hcb : i &&& 1 <<< c ≠ 0
    · rw [if_pos hcb, if_pos (xor_shift_lt ht hi),
        if_pos ((and_shift_xor_ne hct i).mpr hcb), Nat.xor_cancel_right]
    · rw [if_neg hcb, if_pos hi, if_neg hcb]
  · intro n q1 q2 a i h1 h2 hq hi
    unfold swapApply
    rw [if_pos hi]
    by_cases hcb : (i &&& 1 <<< q1 ≠ 0) ↔ (i &&& 1 <<< q2 ≠ 0)
    · rw [if_pos hcb, if_pos hi, if_pos hcb]
    · rw [if_neg hcb, if_pos (xor_shift_lt h2 (xor_shift_lt h1 hi))]
      have hcb' : ¬(((i ^^^ 1 <<< q1 ^^^ 1 <<< q2) &&& 1 <<< q1 ≠ 0) ↔
          ((i ^^^ 1 <<< q1 ^^^ 1 <<< q2) &&& 1 <<< q2 ≠ 0)) := by
        rw [and_one_shiftLeft, and_one_shiftLeft] at hcb ⊢
        rw [testBit_xor_shift, testBit_xor_shift, testBit_xor_shift, testBit_xor_shift]
        cases hb1 : i.testBit q1 <;> cases hb2 : i.testBit q2 <;>
          simp_all [hq, Ne.symm hq]
      rw [if_neg hcb', xor_pair_cancel]
  · intro n c1 c2 t a i hc1 hc2 ht h1t h2t hi
    unfold toffApply
    rw [if_pos hi]
    by_cases hcb : i &&& 1 <<< c1 ≠ 0 ∧ i &&& 1 <<< c2 ≠ 0
    · rw [if_pos hcb, if_pos (xor_shift_lt ht hi),
        if_pos ⟨(and_shift_xor_ne h1t i).mpr hcb.1, (and_shift_xor_ne h2t i).mpr hcb.2⟩,
        Nat.xor_cancel_right]
    · rw [if_neg hcb, if_pos hi, if_neg hcb]

/-- Witness for C6: each of the four gates applied twice to the basis state `|1⟩`
of a 2-qubit store returns its amplitude at index 1. -/
theorem c6_self_inverse_witness :
    xApply 2 0 (xApply 2 0 (delta 1)) 1 = delta 1 1 ∧
    cnotApply 2 0 1 (cnotApply 2 0 1 (delta 1)) 1 = delta 1 1 ∧
    swapApply 2 0 1 (swapApply 2 0 1 (delta 1)) 1 = delta 1 1 ∧
    toffApply 3 0 1 2 (toffApply 3 0 1 2 (delta 1)) 1 = delta 1 1 :=
  ⟨c6_self_inverse.1 2 0 (delta 1) 1 (by norm_num) (by norm_num),
   c6_self_inverse.2.1 2 0 1 (delta 1) 1 (by norm_num) (by norm_num) (by norm_num)
     (by norm_num),
   c6_self_inverse.2.2.1 2 0 1 (delta 1) 1 (by norm_num) (by norm_num) (by norm_num)
     (by norm_num),
   c6_self_inverse.2.2.2 3 0 1 2 (delta 1) 1 (by norm_num) (by norm_num) (by norm_num)
     (by norm_num) (by norm_num) (by norm_num)⟩

/-- C7.  Hadamard(target): for every basis index `i` with bit `target` clear and its
partner `j = i ^ (1 << target)`, the new amplitudes are `(a i + a j)/√2` at `i` and
`(a i − a j)/√2` at `j`; consequently applying the gate twice is the identity on
every index of the store. -/
theorem c7_hadamard (n t : ℕ) (a : Amps) (i : ℕ) (ht : t < n) (hi : i < 2 ^ n)
    (hbit : i &&& 1 <<< t = 0) :
    hApply n t a i = (a i + a (i ^^^ 1 <<< t)) * (invSqrt2 : ℂ) ∧
    hApply n t a (i ^^^ 1 <<< t) = (a i - a (i ^^^ 1 <<< t)) * (invSqrt2 : ℂ) ∧
    (∀ j, j < 2 ^ n → hApply n t (hApply n t a) j = a j) := by
  refine ⟨?_, ?_, ?_⟩
  · unfold hApply
    rw [if_pos hi, if_pos hbit]
  · unfold hApply
    rw [if_pos (xor_shift_lt ht hi),
      if_neg (by rw [and_shift_xor_self]; simp [hbit]), Nat.xor_cancel_right]
  · intro j hj
    have hs := invSqrt2_sq_complex
    unfold hApply
    rw [if_pos hj, if_pos (xor_shift_lt ht hj), if_pos hj]
    by_cases hb : j &&& 1 <<< t = 0
    · rw [if_pos hb, if_pos hb,
        if_neg (by rw [and_shift_xor_self]; simp [hb]), Nat.xor_cancel_right]
      set x := a j
      set y := a (j ^^^ 1 <<< t)
      set s := (invSqrt2 : ℂ)
      linear_combination 2 * x * hs
    · rw [if_neg hb, if_neg hb,
        if_pos (by rw [and_shift_xor_self]; simp [hb]), Nat.xor_cancel_right]
      set x := a j
      set y := a (j ^^^ 1 <<< t)
      set s := (invSqrt2 : ℂ)
      linear_combination 2 * x * hs

lemma totalProb_comp_idx {n : ℕ} (σ : ℕ → ℕ) (hσ : Function.Involutive σ)
    (hlt : ∀ i, i < 2 ^ n → σ i < 2 ^ n) (a : Amps) :
    ∑ i ∈ Finset.range (2 ^ n), Complex.normSq (a (σ i)) = totalProb n a := by
  unfold totalProb
  refine Finset.sum_nbij' σ σ ?_ ?_ ?_ ?_ ?_
  · intro x hx
    rw [Finset.mem_range] at hx ⊢
    exact hlt x hx
  · intro x hx
    rw [Finset.mem_range] at hx ⊢
    exact hlt x hx
  · intro x _
    exact hσ x
  · intro x _
    exact hσ x
  · intro x _
    rfl

lemma normSq_pair (x y : ℂ) :
    Complex.normSq ((x + y) * (invSqrt2 : ℂ)) + Complex.normSq ((x - y) * (invSqrt2 : ℂ)) =
      Complex.normSq x + Complex.normSq y := by
  rw [Complex.normSq_mul, Complex.normSq_mul, normSq_invSqrt2, Complex.normSq_add,
    Complex.normSq_sub]
  ring

lemma hApply_totalProb {n t : ℕ} (ht : t < n) (a : Amps) :
    totalProb n (hApply n t a) = totalProb n a := by
  unfold totalProb
  rw [← Finset.sum_filter_add_sum_filter_not (Finset.range (2 ^ n))
      (fun i => i &&& 1 <<< t = 0) (fun i => Complex.normSq (hApply n t a i)),
    ← Finset.sum_filter_add_sum_filter_not (Finset.range (2 ^ n))
      (fun i => i &&& 1 <<< t = 0) (fun i => Complex.normSq (a i))]
  have hflip : ∀ F : ℕ → ℝ,
      ∑ i ∈ (Finset.range (2 ^ n)).filter (fun i => ¬i &&& 1 <<< t = 0), F i =
        ∑ i ∈ (Finset.range (2 ^ n)).filter (fun i => i &&& 1 <<< t = 0),
          F (i ^^^ 1 <<< t) := by
    intro F
    refine Finset.sum_nbij' (fun i => i ^^^ 1 <<< t) (fun i => i ^^^ 1 <<< t) ?_ ?_ ?_ ?_ ?_
    · intro x hx
      rw [Finset.mem_filter, Finset.mem_range] at hx ⊢
      exact ⟨xor_shift_lt ht hx.1, (and_shift_xor_self x t).mpr hx.2⟩
    · intro x hx
      rw [Finset.mem_filter, Finset.mem_range] at hx ⊢
      refine ⟨xor_shift_lt ht hx.1, ?_⟩
      rw [and_shift_xor_self]
      simp [hx.2]
    · intro x _
      exact Nat.xor_cancel_right _ _
    · intro x _
      exact Nat.xor_cancel_right _ _
    · intro x _
      rw [Nat.xor_cancel_right]
  rw [hflip (fun i => Complex.normSq (hApply n t a i)),
    hflip (fun i => Complex.normSq (a i)), ← Finset.sum_add_distrib,
    ← Finset.sum_add_distrib]
  refine Finset.sum_congr rfl ?_
  intro i hi
  rw [Finset.mem_filter, Finset.mem_range] at hi
  have h1 : hApply n t a i = (a i + a (i ^^^ 1 <<< t)) * (invSqrt2 : ℂ) := by
    unfold hApply
    rw [if_pos hi.1, if_pos hi.2]
  have h2 : hApply n t a (i ^^^ 1 <<< t) = (a i - a (i ^^^ 1 <<< t)) * (invSqrt2 : ℂ) := by
    unfold hApply
    rw [if_pos (xor_shift_lt ht hi.1), if_neg (by rw [and_shift_xor_self]; simp [hi.2]),
      Nat.xor_cancel_right]
  rw [h1, h2, normSq_pair]

lemma psApply_totalProb {n t : ℕ} (ang : ℝ) (a : Amps) :
    totalProb n (psApply n t ang a) = totalProb n a := by
  unfold totalProb
  refine Finset.sum_congr rfl ?_
  intro i hi
  rw [Finset.mem_range] at hi
  unfold psApply
  rw [if_pos hi]
  by_cases hb : i &&& 1 <<< t ≠ 0
  · rw [if_pos hb, Complex.normSq_mul]
    have : Complex.normSq ⟨Real.cos ang, Real.sin ang⟩ = 1 := by
      rw [Complex.normSq_mk]
      have := Real.sin_sq_add_cos_sq ang
      nlinarith [this]
    rw [this, mul_one]
  · rw [if_neg hb]

/-- C1 (amended).  For Hadamard, PauliX, ControlledNot, SWAP, Toffoli and PhaseShift
(every primitive gate other than ControlledModularMultiply), and every starting
state, the total probability after `apply` equals the total probability before. -/
theorem c1_unitarity_of_builtin (g : PrimGate) (hg : isBuiltinUnitary g)
    (hwf : WellFormed g) (n : ℕ) (a : Amps) :
    totalProb n ((applyChecked g n a).1) = totalProb n a := by
  cases g with
  | hadamard t =>
      simp only [applyChecked]
      split
      · rfl
      · exact hApply_totalProb (by omega) a
  | pauliX t =>
      simp only [applyChecked]
      split
      · rfl
      · rename_i h
        have ht : t < n := by omega
        calc totalProb n (xApply n t a)
            = ∑ i ∈ Finset.range (2 ^ n), Complex.normSq (a (xIdx t i)) := by
              refine Finset.sum_congr rfl ?_
              intro i hi
              rw [Finset.mem_range] at hi
              unfold xApply xIdx
              rw [if_pos hi]
          _ = totalProb n a :=
              totalProb_comp_idx _ (xIdx_involutive t) (fun i hi => xIdx_lt ht hi) a
  | cnot c t =>
      simp only [applyChecked]
      split
      · rfl
      · rename_i h
        push_neg at h
        calc totalProb n (cnotApply n c t a)
            = ∑ i ∈ Finset.range (2 ^ n), Complex.normSq (a (cnotIdx c t i)) := by
              refine Finset.sum_congr rfl ?_
              intro i hi
              rw [Finset.mem_range] at hi
              unfold cnotApply cnotIdx
              rw [if_pos hi]
              by_cases hb : i &&& 1 <<< c ≠ 0
              · rw [if_pos hb, if_pos hb]
              · rw [if_neg hb, if_neg hb]
          _ = totalProb n a :=
              totalProb_comp_idx _ (cnotIdx_involutive hwf)
                (fun i hi => cnotIdx_lt h.2 hi) a
  | swapg q1 q2 =>
      simp only [applyChecked]
      split
      · rfl
      · rename_i h
        push_neg at h
        calc totalProb n (swapApply n q1 q2 a)
            = ∑ i ∈ Finset.range (2 ^ n), Complex.normSq (a (swapIdx q1 q2 i)) := by
              refine Finset.sum_congr rfl ?_
              intro i hi
              rw [Finset.mem_range] at hi
              unfold swapApply swapIdx
              rw [if_pos hi]
              by_cases hb : (i &&& 1 <<< q1 ≠ 0) ↔ (i &&& 1 <<< q2 ≠ 0)
              · rw [if_pos hb, if_pos hb]
              · rw [if_neg hb, if_neg hb]
          _ = totalProb n a :=
              totalProb_comp_idx _ (swapIdx_involutive q1 q2)
                (fun i hi => swapIdx_lt h.1 h.2 hi) a
  | toffoli c1 c2 t =>
      simp only [applyChecked]
      split
      · rfl
      · rename_i h
        push_neg at h
        calc totalProb n (toffApply n c1 c2 t a)
            = ∑ i ∈ Finset.range (2 ^ n), Complex.normSq (a (toffIdx c1 c2 t i)) := by
              refine Finset.sum_congr rfl ?_
              intro i hi
              rw [Finset.mem_range] at hi
              unfold toffApply toffIdx
              rw [if_pos hi]
              by_cases hb : i &&& 1 <<< c1 ≠ 0 ∧ i &&& 1 <<< c2 ≠ 0
              · rw [if_pos hb, if_pos hb]
              · rw [if_neg hb, if_neg hb]
          _ = totalProb n a :=
              totalProb_comp_idx _ (toffIdx_involutive hwf.1 hwf.2.1)
                (fun i hi => toffIdx_lt h.2.2 hi) a
  | phaseShift t ang =>
      simp only [applyChecked]
      split
      · rfl
      · exact psApply_totalProb ang a
  | cmm c ts tc mult md => exact hg.elim

/-- Witness for C1: the Hadamard gate on a 1-qubit store preserves the total
probability of the basis state `|0⟩`. -/
theorem c1_unitarity_of_builtin_witness :
    totalProb 1 ((applyChecked (.hadamard 0) 1 (delta 0)).1) = totalProb 1 (delta 0) :=
  c1_unitarity_of_builtin (.hadamard 0) trivial trivial 1 (delta 0)

/-- Counterexample to C1 as stated: the ControlledModularMultiply gate with
control 0, a 1-qubit target field at qubit 1, multiplier 1 and modulus 1 — a
descriptor its constructor accepts — applied to the normalized basis state `|3⟩`
of a 2-qubit store yields total probability 2 instead of 1. -/
theorem c1_unitarity_counterexample :
    WellFormed (.cmm 0 1 1 1 1) ∧
    totalProb 2 (delta 3) = 1 ∧
    totalProb 2 ((applyChecked (.cmm 0 1 1 1 1) 2 (delta 3)).1) = 2 := by
  refine ⟨⟨by norm_num, by norm_num, by norm_num, by norm_num⟩, ?_, ?_⟩
  · unfold totalProb delta
    rw [show (2 : ℕ) ^ 2 = 4 by norm_num]
    rw [Finset.sum_range_succ, Finset.sum_range_succ, Finset.sum_range_succ,
      Finset.sum_range_succ, Finset.sum_range_zero]
    norm_num
  · have happ : (applyChecked (.cmm 0 1 1 1 1) 2 (delta 3)).1 =
        cmmApply 2 0 1 1 1 1 (delta 3) := rfl
    rw [happ]
    have hfold : cmmWrites 2 0 1 1 1 1 (delta 3) =
        Function.update (Function.update (delta 3) 1 (delta 3 1)) 1 (delta 3 3) := by
      unfold cmmWrites
      rw [show (2 : ℕ) ^ 2 = 4 by norm_num, show List.range 4 = [0, 1, 2, 3] by decide]
      simp only [List.foldl_cons, List.foldl_nil]
      rw [if_pos (by decide), if_neg (by decide), if_pos (by decide), if_neg (by decide),
        show cmmDest 1 1 1 1 1 = 1 by decide, show cmmDest 1 1 1 1 3 = 1 by decide]
    have hc : ∀ i, i < 4 → cmmApply 2 0 1 1 1 1 (delta 3) i =
        Function.update (Function.update (delta 3) 1 (delta 3 1)) 1 (delta 3 3) i := by
      intro i hi
      unfold cmmApply
      rw [if_pos (show i < 2 ^ 2 by omega), hfold]
    unfold totalProb
    rw [show (2 : ℕ) ^ 2 = 4 by norm_num]
    rw [Finset.sum_range_succ, Finset.sum_range_succ, Finset.sum_range_succ,
      Finset.sum_range_succ, Finset.sum_range_zero]
    rw [hc 0 (by norm_num), hc 1 (by norm_num), hc 2 (by norm_num), hc 3 (by norm_num)]
    rw [Function.update_apply, Function.update_apply, Function.update_apply,
      Function.update_apply, Function.update_apply, Function.update_apply,
      Function.update_apply, Function.update_apply]
    unfold delta
    norm_num

/-- Witness for C7 at a concrete instance: Hadamard on qubit 0 of a 1-qubit store
in state `|0⟩`. -/
theorem c7_hadamard_witness :
    hApply 1 0 (delta 0) 0 = (delta 0 0 + delta 0 (0 ^^^ 1 <<< 0)) * (invSqrt2 : ℂ) ∧
    hApply 1 0 (delta 0) (0 ^^^ 1 <<< 0) =
      (delta 0 0 - delta 0 (0 ^^^ 1 <<< 0)) * (invSqrt2 : ℂ) ∧
    (∀ j, j < 2 ^ 1 → hApply 1 0 (hApply 1 0 (delta 0)) j = delta 0 j) :=
  c7_hadamard 1 0 (delta 0) 0 (by norm_num) (by norm_num) (by norm_num)

lemma extractTarget_testBit (ts tc x j : ℕ) :
    (extractTarget ts tc x).testBit j = (decide (j < tc) && x.testBit (ts + j)) := by
  unfold extractTarget
  rw [Nat.testBit_and, Nat.testBit_shiftRight, Nat.one_shiftLeft,
    Nat.testBit_two_pow_sub_one]
  exact Bool.and_comm _ _

lemma maskBit (ts tc p : ℕ) :
    (((1 <<< tc : ℕ) - 1) <<< ts).testBit p = (decide (ts ≤ p) && decide (p - ts < tc)) := by
  rw [Nat.testBit_shiftLeft, Nat.one_shiftLeft, Nat.testBit_two_pow_sub_one]

lemma clearTarget_testBit (ts tc i p : ℕ) :
    (clearTarget ts tc i).testBit p =
      (i.testBit p && !(decide (ts ≤ p) && decide (p - ts < tc))) := by
  unfold clearTarget
  rw [Nat.testBit_xor, Nat.testBit_and, maskBit]
  cases i.testBit p <;> cases (decide (ts ≤ p) && decide (p - ts < tc)) <;> rfl

lemma replaceTarget_testBit (ts tc i y p : ℕ) :
    (replaceTarget ts tc i y).testBit p =
      ((i.testBit p && !(decide (ts ≤ p) && decide (p - ts < tc))) ||
        (decide (p ≥ ts) && y.testBit (p - ts))) := by
  unfold replaceTarget
  rw [Nat.testBit_lor, clearTarget_testBit, Nat.testBit_shiftLeft]

lemma replaceTarget_lt {n ts tc i y : ℕ} (hext : ts + tc ≤ n) (hi : i < 2 ^ n)
    (hy : y < 2 ^ tc) : replaceTarget ts tc i y < 2 ^ n := by
  apply lt_two_pow_of_high_bits
  intro p hp
  rw [replaceTarget_testBit]
  have hib : i.testBit p = false :=
    Nat.testBit_lt_two_pow (lt_of_lt_of_le hi (Nat.pow_le_pow_right (by norm_num) hp))
  have hyb : y.testBit (p - ts) = false :=
    Nat.testBit_lt_two_pow
      (lt_of_lt_of_le hy (Nat.pow_le_pow_right (by norm_num) (by omega)))
  simp [hib, hyb]

lemma cmmDest_lt {n ts tc mult md i : ℕ} (hmd : 0 < md) (hfit : md ≤ 2 ^ tc)
    (hext : ts + tc ≤ n) (hi : i < 2 ^ n) : cmmDest ts tc mult md i < 2 ^ n :=
  replaceTarget_lt hext hi (lt_of_lt_of_le (Nat.mod_lt _ hmd) hfit)

lemma cmmDest_testBit_outside {ts tc mult md i p : ℕ} (hmd : 0 < md)
    (hfit : md ≤ 2 ^ tc) (hp : p < ts ∨ ts + tc ≤ p) :
    (cmmDest ts tc mult md i).testBit p = i.testBit p := by
  unfold cmmDest
  rw [replaceTarget_testBit]
  rcases hp with hp | hp
  · simp [show ¬ts ≤ p from by omega]
  · have h1 : ¬p - ts < tc := by omega
    have h2 : ((mult * extractTarget ts tc i) % md).testBit (p - ts) = false := by
      apply Nat.testBit_lt_two_pow
      calc (mult * extractTarget ts tc i) % md < md := Nat.mod_lt _ hmd
        _ ≤ 2 ^ tc := hfit
        _ ≤ 2 ^ (p - ts) := Nat.pow_le_pow_right (by norm_num) (by omega)
    simp [h1, h2]

lemma extractTarget_replaceTarget {ts tc i y : ℕ} (hy : y < 2 ^ tc) :
    extractTarget ts tc (replaceTarget ts tc i y) = y := by
  apply Nat.eq_of_testBit_eq
  intro j
  rw [extractTarget_testBit, replaceTarget_testBit]
  by_cases hj : j < tc
  · simp [hj, show ts ≤ ts + j from Nat.le_add_right ts j,
      show ts + j - ts = j from by omega]
  · have hb : y.testBit j = false :=
      Nat.testBit_lt_two_pow
        (lt_of_lt_of_le hy (Nat.pow_le_pow_right (by norm_num) (by omega)))
    simp [hj, hb]

/-- The last iteration of the write loop of `ControlledModMultGate::apply` below `N`
(the loop runs `i` ascending, so the largest hitting index wins) whose write lands
on index `j`. -/
def cmmHit (control ts tc mult md j : ℕ) : ℕ → Option ℕ
  | 0 => none
  | N + 1 =>
      if N &&& 1 <<< control ≠ 0 ∧ cmmDest ts tc mult md N = j then some N
      else cmmHit control ts tc mult md j N

lemma cmmHit_succ (control ts tc mult md j N : ℕ) :
    cmmHit control ts tc mult md j (N + 1) =
      if N &&& 1 <<< control ≠ 0 ∧ cmmDest ts tc mult md N = j then some N
      else cmmHit control ts tc mult md j N := rfl

lemma cmmWrites_char_aux (control ts tc mult md : ℕ) (a : Amps) (j : ℕ) (N : ℕ) :
    ((List.range N).foldl
      (fun acc i =>
        if i &&& 1 <<< control ≠ 0 then
          Function.update acc (cmmDest ts tc mult md i) (a i)
        else acc) a) j =
      match cmmHit control ts tc mult md j N with
      | some i => a i
      | none => a j := by
  induction N with
  | zero => rfl
  | succ N ih =>
      rw [List.range_succ, List.foldl_append]
      simp only [List.foldl_cons, List.foldl_nil, cmmHit_succ]
      by_cases hcond : N &&& 1 <<< control ≠ 0
      · by_cases hdest : cmmDest ts tc mult md N = j
        · rw [if_pos hcond, if_pos ⟨hcond, hdest⟩, hdest, Function.update_same]
        · rw [if_pos hcond, Function.update_noteq (fun hh => hdest hh.symm), ih,
            if_neg (fun hh => hdest hh.2)]
      · rw [if_neg hcond, ih, if_neg (fun hh => hcond hh.1)]

lemma cmmWrites_char (n control ts tc mult md : ℕ) (a : Amps) (j : ℕ) :
    cmmWrites n control ts tc mult md a j =
      match cmmHit control ts tc mult md j (2 ^ n) with
      | some i => a i
      | none => a j :=
  cmmWrites_char_aux control ts tc mult md a j (2 ^ n)

lemma cmmHit_spec {control ts tc mult md j : ℕ} :
    ∀ {N i : ℕ}, cmmHit control ts tc mult md j N = some i →
      i < N ∧ i &&& 1 <<< control ≠ 0 ∧ cmmDest ts tc mult md i = j := by
  intro N
  induction N with
  | zero => intro i h; exact absurd h (by simp [cmmHit])
  | succ N ih =>
      intro i h
      rw [cmmHit_succ] at h
      split at h
      · rename_i hcond
        obtain rfl : N = i := by injection h
        exact ⟨Nat.lt_succ_self N, hcond.1, hcond.2⟩
      · obtain ⟨h1, h2, h3⟩ := ih h
        exact ⟨Nat.lt_succ_of_lt h1, h2, h3⟩

lemma cmmHit_eq_some {control ts tc mult md j : ℕ} :
    ∀ {N i0 : ℕ}, i0 < N → i0 &&& 1 <<< control ≠ 0 → cmmDest ts tc mult md i0 = j →
      (∀ i, i < N → i &&& 1 <<< control ≠ 0 → cmmDest ts tc mult md i = j → i = i0) →
      cmmHit control ts tc mult md j N = some i0 := by
  intro N
  induction N with
  | zero => intro i0 h; omega
  | succ N ih =>
      intro i0 h0 hc0 hd0 huniq
      rw [cmmHit_succ]
      by_cases hN : N &&& 1 <<< control ≠ 0 ∧ cmmDest ts tc mult md N = j
      · rw [if_pos hN, huniq N (Nat.lt_succ_self N) hN.1 hN.2]
      · rw [if_neg hN]
        have hi0N : i0 ≠ N := by
          intro hh
          exact hN (hh ▸ ⟨hc0, hd0⟩)
        exact ih (by omega) hc0 hd0
          (fun i hi hc hd => huniq i (Nat.lt_succ_of_lt hi) hc hd)

lemma cmmHit_eq_none {control ts tc mult md j : ℕ} :
    ∀ {N : ℕ}, (∀ i, i < N → i &&& 1 <<< control ≠ 0 → cmmDest ts tc mult md i ≠ j) →
      cmmHit control ts tc mult md j N = none := by
  intro N
  induction N with
  | zero => intro _; rfl
  | succ N ih =>
      intro h
      rw [cmmHit_succ,
        if_neg (fun hh => h N (Nat.lt_succ_self N) hh.1 hh.2)]
      exact ih (fun i hi hc hd => h i (Nat.lt_succ_of_lt hi) hc hd)

/-- C4 (amended).  For a validated ControlledModularMultiply whose modulus fits the
target field and whose destination map is injective on the control-set indices: the
amplitude of every control-set basis index `i` is moved to the index whose target
field holds `(multiplier · y) mod modulus` (where `y` is the field value of `i`,
reduced for every `y` including `y ≥ modulus`), all bits outside the target field
are unchanged, and every index with the control bit clear keeps its amplitude. -/
theorem c4_cmm_mapping (n c ts tc mult md : ℕ) (a : Amps)
    (hc : c < n) (hext : ts + tc ≤ n) (hmd : 0 < md) (hfit : md ≤ 2 ^ tc)
    (hcout : c < ts ∨ ts + tc ≤ c)
    (hinj : ∀ i i', i < 2 ^ n → i' < 2 ^ n → i &&& 1 <<< c ≠ 0 → i' &&& 1 <<< c ≠ 0 →
      cmmDest ts tc mult md i = cmmDest ts tc mult md i' → i = i') :
    (applyChecked (.cmm c ts tc mult md) n a).2 = none ∧
    (∀ i, i < 2 ^ n → i &&& 1 <<< c ≠ 0 →
      (applyChecked (.cmm c ts tc mult md) n a).1 (cmmDest ts tc mult md i) = a i ∧
      extractTarget ts tc (cmmDest ts tc mult md i) =
        (mult * extractTarget ts tc i) % md ∧
      (∀ p, p < ts ∨ ts + tc ≤ p →
        (cmmDest ts tc mult md i).testBit p = i.testBit p)) ∧
    (∀ i, i < 2 ^ n → i &&& 1 <<< c = 0 →
      (applyChecked (.cmm c ts tc mult md) n a).1 i = a i) := by
  have happ : applyChecked (.cmm c ts tc mult md) n a =
      (cmmApply n c ts tc mult md a, none) := by
    simp only [applyChecked]
    rw [if_neg (by omega), if_neg (by omega)]
  rw [happ]
  refine ⟨rfl, ?_, ?_⟩
  · intro i hi hcb
    refine ⟨?_, ?_, ?_⟩
    · show cmmApply n c ts tc mult md a (cmmDest ts tc mult md i) = a i
      unfold cmmApply
      rw [if_pos (cmmDest_lt hmd hfit hext hi), cmmWrites_char,
        cmmHit_eq_some hi hcb rfl
          (fun i' hi' hc' hd' => hinj i' i hi' hi hc' hcb hd')]
    · exact extractTarget_replaceTarget (lt_of_lt_of_le (Nat.mod_lt _ hmd) hfit)
    · intro p hp
      exact cmmDest_testBit_outside hmd hfit hp
  · intro i hi hcb
    show cmmApply n c ts tc mult md a i = a i
    unfold cmmApply
    rw [if_pos hi, cmmWrites_char, cmmHit_eq_none ?_]
    intro i' hi' hc' hd'
    have hbit : (cmmDest ts tc mult md i').testBit c = i'.testBit c :=
      cmmDest_testBit_outside hmd hfit hcout
    rw [hd'] at hbit
    rw [and_one_shiftLeft] at hc'
    rw [and_shift_eq_zero_iff] at hcb
    rw [hcb, hc'] at hbit
    exact Bool.false_ne_true hbit

/-- Witness for C4: the amended mapping statement at the concrete gate
ControlledModularMultiply(control 0, field [1,2), multiplier 1, modulus 2) on a
2-qubit store in state `|3⟩`. -/
theorem c4_cmm_mapping_witness :
    (applyChecked (.cmm 0 1 1 1 2) 2 (delta 3)).2 = none ∧
    (∀ i, i < 2 ^ 2 → i &&& 1 <<< 0 ≠ 0 →
      (applyChecked (.cmm 0 1 1 1 2) 2 (delta 3)).1 (cmmDest 1 1 1 2 i) = delta 3 i ∧
      extractTarget 1 1 (cmmDest 1 1 1 2 i) = (1 * extractTarget 1 1 i) % 2 ∧
      (∀ p, p < 1 ∨ 1 + 1 ≤ p → (cmmDest 1 1 1 2 i).testBit p = i.testBit p)) ∧
    (∀ i, i < 2 ^ 2 → i &&& 1 <<< 0 = 0 →
      (applyChecked (.cmm 0 1 1 1 2) 2 (delta 3)).1 i = delta 3 i) :=
  c4_cmm_mapping 2 0 1 1 1 2 (delta 3) (by norm_num) (by norm_num) (by norm_num)
    (by norm_num) (by norm_num)
    (fun i i' hi hi' _ _ h => by
      have hd : ∀ k, k < 4 → cmmDest 1 1 1 2 k = k := by decide
      rwa [hd i hi, hd i' hi'] at h)

/-- Counterexample to C4 as stated: for the constructor-accepted gate
ControlledModularMultiply(control 0, field [1,2), multiplier 1, modulus 1) on a
2-qubit store in state `|3⟩`, index 1 has the control bit set and destination
index 1, yet after `apply` the amplitude at that destination is not the old
amplitude of index 1 — a colliding later write (from index 3) overwrote it. -/
theorem c4_cmm_counterexample :
    (3 : ℕ) &&& 1 <<< 0 ≠ 0 ∧ (1 : ℕ) &&& 1 <<< 0 ≠ 0 ∧
    cmmDest 1 1 1 1 1 = 1 ∧
    (applyChecked (.cmm 0 1 1 1 1) 2 (delta 3)).1 (cmmDest 1 1 1 1 1) ≠ delta 3 1 := by
  refine ⟨by decide, by decide, by decide, ?_⟩
  have happ : (applyChecked (.cmm 0 1 1 1 1) 2 (delta 3)).1 =
      cmmApply 2 0 1 1 1 1 (delta 3) := rfl
  rw [happ, show cmmDest 1 1 1 1 1 = 1 from by decide]
  unfold cmmApply
  rw [if_pos (by norm_num), cmmWrites_char,
    show cmmHit 0 1 1 1 1 1 (2 ^ 2) = some 3 from by decide]
  show delta 3 3 ≠ delta 3 1
  unfold delta
  norm_num

/-- C9.  Under the (unchecked) precondition `modulus ≤ 2^targetCount`, every
destination index computed by ControlledModularMultiply's apply is within
`[0, 2^n)`; without it the validation still passes and an out-of-bounds write
occurs: for the accepted gate (control 0, field [1,2), multiplier 2, modulus 3) on
a 2-qubit store, source index 3 has the control bit set, its computed destination
is 5 ≥ 2^2, no error is raised, and the write loop deposits the amplitude at
index 5. -/
theorem c9_cmm_destination_bounds :
    (∀ n ts tc mult md i, 0 < md → md ≤ 2 ^ tc → ts + tc ≤ n → i < 2 ^ n →
      cmmDest ts tc mult md i < 2 ^ n) ∧
    ((applyChecked (.cmm 0 1 1 2 3) 2 (delta 3)).2 = none ∧
      (3 : ℕ) &&& 1 <<< 0 ≠ 0 ∧
      cmmDest 1 1 2 3 3 = 5 ∧ ¬(5 < 2 ^ 2) ∧
      cmmWrites 2 0 1 1 2 3 (delta 3) 5 = delta 3 3 ∧ delta 3 3 = 1) := by
  refine ⟨?_, rfl, by decide, by decide, by decide, ?_, rfl⟩
  · intro n ts tc mult md i hmd hfit hext hi
    exact cmmDest_lt hmd hfit hext hi
  · rw [cmmWrites_char, show cmmHit 0 1 1 2 3 5 (2 ^ 2) = some 3 from by decide]

/-- Witness for C9: the in-bounds half at the concrete gate of the modular
exponentiation driver (field [1,2), multiplier 2, modulus 2, 2-qubit store). -/
theorem c9_cmm_destination_bounds_witness :
    cmmDest 1 1 2 2 3 < 2 ^ 2 :=
  c9_cmm_destination_bounds.1 2 1 1 2 2 3 (by norm_num) (by norm_num) (by norm_num)
    (by norm_num)

lemma mkHadamard_nat (x : ℕ) : mkHadamard (x : ℤ) = .ok (.hadamard x) := by
  unfold mkHadamard
  rw [if_neg (by omega)]
  rw [Int.toNat_natCast]

lemma mkXGate_nat (x : ℕ) : mkXGate (x : ℤ) = .ok (.pauliX x) := by
  unfold mkXGate
  rw [if_neg (by omega)]
  rw [Int.toNat_natCast]

lemma mkCNOT_nat (x y : ℕ) (h : x ≠ y) : mkCNOT (x : ℤ) (y : ℤ) = .ok (.cnot x y) := by
  unfold mkCNOT
  rw [if_neg (by omega), if_neg (by exact_mod_cast h)]
  rw [Int.toNat_natCast, Int.toNat_natCast]

lemma mkToffoli_nat (x y z : ℕ) (h1 : x ≠ z) (h2 : y ≠ z) (h3 : x ≠ y) :
    mkToffoli (x : ℤ) (y : ℤ) (z : ℤ) = .ok (.toffoli x y z) := by
  unfold mkToffoli
  rw [if_neg (by omega), if_neg (by push_cast; omega), if_neg (by exact_mod_cast h3)]
  rw [Int.toNat_natCast, Int.toNat_natCast, Int.toNat_natCast]

lemma mkCMM_nat (c ts tc mult md : ℕ) (htc : 0 < tc) (hmult : mult ≠ 0) (hmd : md ≠ 0)
    (hco : ¬(ts ≤ c ∧ c < ts + tc)) :
    mkCMM (c : ℤ) (ts : ℤ) (tc : ℤ) mult md = .ok (.cmm c ts tc mult md) := by
  unfold mkCMM
  rw [if_neg (by omega), if_neg (by tauto), if_neg (by push_cast; omega)]
  rw [Int.toNat_natCast, Int.toNat_natCast, Int.toNat_natCast]

lemma applyChecked_hadamard (n t : ℕ) (a : Amps) (ht : t < n) :
    applyChecked (.hadamard t) n a = (hApply n t a, none) := by
  simp only [applyChecked]
  rw [if_neg (by omega)]

lemma applyChecked_x_delta (n t k : ℕ) (ht : t < n) (hk : k < 2 ^ n) :
    applyChecked (.pauliX t) n (delta k) = (delta (xIdx t k), none) := by
  simp only [applyChecked]
  rw [if_neg (by omega), xApply_delta ht hk]

lemma applyChecked_cnot_delta (n c t k : ℕ) (hc : c < n) (ht : t < n) (hct : c ≠ t)
    (hk : k < 2 ^ n) :
    applyChecked (.cnot c t) n (delta k) = (delta (cnotIdx c t k), none) := by
  simp only [applyChecked]
  rw [if_neg (by omega), cnotApply_delta ht hct hk]

lemma applyChecked_toffoli_delta (n c1 c2 t k : ℕ) (hc1 : c1 < n) (hc2 : c2 < n)
    (ht : t < n) (h1 : c1 ≠ t) (h2 : c2 ≠ t) (hk : k < 2 ^ n) :
    applyChecked (.toffoli c1 c2 t) n (delta k) = (delta (toffIdx c1 c2 t k), none) := by
  simp only [applyChecked]
  rw [if_neg (by omega), toffApply_delta ht h1 h2 hk]

/-- Index action of one iteration of `QuantumAdder::apply`'s loop (bit position
`i`): three Toffolis accumulating the majority into the carry-out, then the two
sum CNOTs. -/
def adderStep (aS bS cS i k : ℕ) : ℕ :=
  cnotIdx (cS + i) (bS + i)
    (cnotIdx (aS + i) (bS + i)
      (toffIdx (bS + i) (cS + i) (cS + i + 1)
        (toffIdx (aS + i) (cS + i) (cS + i + 1)
          (toffIdx (aS + i) (bS + i) (cS + i + 1) k))))

/-- Index action of the full ripple-carry adder on basis states. -/
def adderIdx (aS bS cS nb k : ℕ) : ℕ :=
  (List.range nb).foldl (fun x i => adderStep aS bS cS i x) k

/-- The 3-input majority as parity of the three pairwise ANDs (the order the three
Toffoli gates accumulate them). -/
def majB (x y z : Bool) : Bool := (x && y) ^^ ((x && z) ^^ (y && z))

/-- The carry chain of the ripple-carry addition of the bit sequences `A`, `B`. -/
def carryB (A B : ℕ → Bool) : ℕ → Bool
  | 0 => false
  | j + 1 => majB (A j) (B j) (carryB A B j)

/-- The sum bits of the ripple-carry addition of the bit sequences `A`, `B`. -/
def sumB (A B : ℕ → Bool) (j : ℕ) : Bool := A j ^^ (B j ^^ carryB A B j)

lemma adderStep_testBit (aS bS cS i K p : ℕ)
    (hab : aS + i ≠ bS + i) (hac : aS + i ≠ cS + i) (hac1 : aS + i ≠ cS + i + 1)
    (hbc : bS + i ≠ cS + i) (hbc1 : bS + i ≠ cS + i + 1) :
    (adderStep aS bS cS i K).testBit p =
      if p = bS + i then
        K.testBit (bS + i) ^^ (K.testBit (aS + i) ^^ K.testBit (cS + i))
      else if p = cS + i + 1 then
        K.testBit (cS + i + 1) ^^
          majB (K.testBit (aS + i)) (K.testBit (bS + i)) (K.testBit (cS + i))
      else K.testBit p := by
  have hcc : cS + i ≠ cS + i + 1 := by omega
  unfold adderStep majB
  simp only [cnotIdx_testBit, toffIdx_testBit]
  by_cases hp1 : p = bS + i
  · rw [if_pos hp1, hp1]
    simp only [show ((bS + i = cS + i + 1) = False) from by simp [hbc1],
      show ((cS + i = bS + i) = False) from by simp [Ne.symm hbc],
      show ((aS + i = bS + i) = False) from by simp [hab],
      show ((cS + i = cS + i + 1) = False) from by simp [hcc],
      show ((aS + i = cS + i + 1) = False) from by simp [hac1],
      show ((bS + i = bS + i) = True) from by simp]
    cases K.testBit (aS + i) <;> cases K.testBit (bS + i) <;> cases K.testBit (cS + i) <;> rfl
  · by_cases hp2 : p = cS + i + 1
    · rw [if_neg hp1, if_pos hp2, hp2]
      simp only [show ((cS + i + 1 = bS + i) = False) from by simp [Ne.symm hbc1],
        show ((cS + i + 1 = cS + i + 1) = True) from by simp,
        show ((cS + i = bS + i) = False) from by simp [Ne.symm hbc],
        show ((aS + i = bS + i) = False) from by simp [hab],
        show ((cS + i = cS + i + 1) = False) from by simp [hcc],
        show ((aS + i = cS + i + 1) = False) from by simp [hac1],
        show ((bS + i = cS + i + 1) = False) from by simp [hbc1]]
      cases K.testBit (aS + i) <;> cases K.testBit (bS + i) <;>
        cases K.testBit (cS + i) <;> cases K.testBit (cS + i + 1) <;> rfl
    · rw [if_neg hp1, if_neg hp2]
      simp only [show ((p = bS + i) = False) from by simp [hp1],
        show ((p = cS + i + 1) = False) from by simp [hp2],
        show ((cS + i = bS + i) = False) from by simp [Ne.symm hbc],
        show ((aS + i = bS + i) = False) from by simp [hab],
        show ((cS + i = cS + i + 1) = False) from by simp [hcc],
        show ((aS + i = cS + i + 1) = False) from by simp [hac1],
        show ((bS + i = cS + i + 1) = False) from by simp [hbc1]]
      cases K.testBit p <;> rfl

lemma runChecked_append_ok (n : ℕ) (l1 l2 : List (Except SimErr PrimGate)) (a a' : Amps)
    (h : runChecked n l1 a = (a', none)) :
    runChecked n (l1 ++ l2) a = runChecked n l2 a' := by
  rw [runChecked_append, h]

lemma adderStep_lt {aS bS cS i n K : ℕ} (hb : bS + i < n) (hc1 : cS + i + 1 < n)
    (hK : K < 2 ^ n) : adderStep aS bS cS i K < 2 ^ n :=
  cnotIdx_lt hb (cnotIdx_lt hb (toffIdx_lt hc1 (toffIdx_lt hc1 (toffIdx_lt hc1 hK))))

lemma adderIdx_succ (aS bS cS nb k : ℕ) :
    adderIdx aS bS cS (nb + 1) k = adderStep aS bS cS nb (adderIdx aS bS cS nb k) := by
  unfold adderIdx
  rw [List.range_succ, List.foldl_append]
  simp only [List.foldl_cons, List.foldl_nil]

lemma adderGateList_succ (aS bS cS nb : ℕ) :
    adderGateList aS bS cS (nb + 1) = adderGateList aS bS cS nb ++
      [mkToffoli ((aS + nb : ℕ) : ℤ) ((bS + nb : ℕ) : ℤ) ((cS + nb + 1 : ℕ) : ℤ),
       mkToffoli ((aS + nb : ℕ) : ℤ) ((cS + nb : ℕ) : ℤ) ((cS + nb + 1 : ℕ) : ℤ),
       mkToffoli ((bS + nb : ℕ) : ℤ) ((cS + nb : ℕ) : ℤ) ((cS + nb + 1 : ℕ) : ℤ),
       mkCNOT ((aS + nb : ℕ) : ℤ) ((bS + nb : ℕ) : ℤ),
       mkCNOT ((cS + nb : ℕ) : ℤ) ((bS + nb : ℕ) : ℤ)] := by
  unfold adderGateList
  rw [List.range_succ, List.flatMap_append, List.flatMap_cons, List.flatMap_nil,
    List.append_nil]

lemma adder_block_delta (n aS bS cS i K : ℕ)
    (ha : aS + i < n) (hb : bS + i < n) (hc1 : cS + i + 1 < n)
    (hab : aS + i ≠ bS + i) (hac : aS + i ≠ cS + i) (hac1 : aS + i ≠ cS + i + 1)
    (hbc : bS + i ≠ cS + i) (hbc1 : bS + i ≠ cS + i + 1) (hK : K < 2 ^ n) :
    runChecked n
      [mkToffoli ((aS + i : ℕ) : ℤ) ((bS + i : ℕ) : ℤ) ((cS + i + 1 : ℕ) : ℤ),
       mkToffoli ((aS + i : ℕ) : ℤ) ((cS + i : ℕ) : ℤ) ((cS + i + 1 : ℕ) : ℤ),
       mkToffoli ((bS + i : ℕ) : ℤ) ((cS + i : ℕ) : ℤ) ((cS + i + 1 : ℕ) : ℤ),
       mkCNOT ((aS + i : ℕ) : ℤ) ((bS + i : ℕ) : ℤ),
       mkCNOT ((cS + i : ℕ) : ℤ) ((bS + i : ℕ) : ℤ)] (delta K) =
      (delta (adderStep aS bS cS i K), none) := by
  have hc : cS + i < n := by omega
  rw [mkToffoli_nat _ _ _ hac1 hbc1 hab,
    mkToffoli_nat _ _ _ hac1 (by omega) hac,
    mkToffoli_nat _ _ _ hbc1 (by omega) hbc,
    mkCNOT_nat _ _ hab, mkCNOT_nat _ _ (Ne.symm hbc)]
  rw [runChecked_cons_ok _ _ _ _ _
    (applyChecked_toffoli_delta n _ _ _ K ha hb hc1 hac1 hbc1 hK)]
  have h1 : toffIdx (aS + i) (bS + i) (cS + i + 1) K < 2 ^ n := toffIdx_lt hc1 hK
  rw [runChecked_cons_ok _ _ _ _ _
    (applyChecked_toffoli_delta n _ _ _ _ ha hc hc1 hac1 (by omega) h1)]
  have h2 : toffIdx (aS + i) (cS + i) (cS + i + 1)
      (toffIdx (aS + i) (bS + i) (cS + i + 1) K) < 2 ^ n := toffIdx_lt hc1 h1
  rw [runChecked_cons_ok _ _ _ _ _
    (applyChecked_toffoli_delta n _ _ _ _ hb hc hc1 hbc1 (by omega) h2)]
  have h3 : toffIdx (bS + i) (cS + i) (cS + i + 1)
      (toffIdx (aS + i) (cS + i) (cS + i + 1)
        (toffIdx (aS + i) (bS + i) (cS + i + 1) K)) < 2 ^ n := toffIdx_lt hc1 h2
  rw [runChecked_cons_ok _ _ _ _ _
    (applyChecked_cnot_delta n _ _ _ ha hb hab h3)]
  have h4 : cnotIdx (aS + i) (bS + i)
      (toffIdx (bS + i) (cS + i) (cS + i + 1)
        (toffIdx (aS + i) (cS + i) (cS + i + 1)
          (toffIdx (aS + i) (bS + i) (cS + i + 1) K))) < 2 ^ n := cnotIdx_lt hb h3
  rw [runChecked_cons_ok _ _ _ _ _
    (applyChecked_cnot_delta n _ _ _ hc hb (Ne.symm hbc) h4)]
  rfl

lemma adder_run_delta (aS bS cS nb n : ℕ)
    (hA : aS + nb ≤ n) (hB : bS + nb ≤ n) (hC : cS + nb + 1 ≤ n)
    (hAB : ∀ j j', j < nb → j' < nb → aS + j ≠ bS + j')
    (hAC : ∀ j j', j < nb → j' < nb + 1 → aS + j ≠ cS + j')
    (hBC : ∀ j j', j < nb → j' < nb + 1 → bS + j ≠ cS + j')
    (k : ℕ) (hk : k < 2 ^ n) :
    runChecked n (adderGateList aS bS cS nb) (delta k) =
      (delta (adderIdx aS bS cS nb k), none) ∧ adderIdx aS bS cS nb k < 2 ^ n := by
  induction nb with
  | zero => exact ⟨rfl, hk⟩
  | succ nb ih =>
      obtain ⟨hrun, hlt⟩ := ih (by omega) (by omega) (by omega)
        (fun j j' hj hj' => hAB j j' (by omega) (by omega))
        (fun j j' hj hj' => hAC j j' (by omega) (by omega))
        (fun j j' hj hj' => hBC j j' (by omega) (by omega))
      have hblock := adder_block_delta n aS bS cS nb (adderIdx aS bS cS nb k)
        (by omega) (by omega) (by omega)
        (hAB nb nb (by omega) (by omega))
        (hAC nb nb (by omega) (by omega))
        (hAC nb (nb + 1) (by omega) (by omega))
        (hBC nb nb (by omega) (by omega))
        (hBC nb (nb + 1) (by omega) (by omega)) hlt
      refine ⟨?_, ?_⟩
      · rw [adderGateList_succ, runChecked_append_ok _ _ _ _ _ hrun, hblock,
          adderIdx_succ]
      · rw [adderIdx_succ]
        exact adderStep_lt (by omega) (by omega) hlt

lemma adderFold_testBit (aS bS cS nb n k : ℕ)
    (hAB : ∀ j j', j < nb → j' < nb → aS + j ≠ bS + j')
    (hAC : ∀ j j', j < nb → j' < nb + 1 → aS + j ≠ cS + j')
    (hBC : ∀ j j', j < nb → j' < nb + 1 → bS + j ≠ cS + j')
    (hCz : ∀ j, j ≤ nb → k.testBit (cS + j) = false) :
    ∀ m, m ≤ nb → ∀ p,
      (adderIdx aS bS cS m k).testBit p =
        if bS ≤ p ∧ p < bS + m then
          sumB (fun j => k.testBit (aS + j)) (fun j => k.testBit (bS + j)) (p - bS)
        else if cS + 1 ≤ p ∧ p < cS + 1 + m then
          carryB (fun j => k.testBit (aS + j)) (fun j => k.testBit (bS + j)) (p - cS)
        else k.testBit p := by
  intro m
  induction m with
  | zero =>
      intro _ p
      rw [if_neg (by omega), if_neg (by omega)]
      rfl
  | succ m ih =>
      intro hm p
      have ihm := ih (by omega)
      have d1 : aS + m ≠ bS + m := hAB m m (by omega) (by omega)
      have d2 : aS + m ≠ cS + m := hAC m m (by omega) (by omega)
      have d3 : aS + m ≠ cS + m + 1 := by
        have := hAC m (m + 1) (by omega) (by omega)
        omega
      have d4 : bS + m ≠ cS + m := hBC m m (by omega) (by omega)
      have d5 : bS + m ≠ cS + m + 1 := by
        have := hBC m (m + 1) (by omega) (by omega)
        omega
      rw [adderIdx_succ, adderStep_testBit _ _ _ _ _ _ d1 d2 d3 d4 d5]
      have hKa : (adderIdx aS bS cS m k).testBit (aS + m) = k.testBit (aS + m) := by
        have hx1 : ¬(bS ≤ aS + m ∧ aS + m < bS + m) := by
          rintro ⟨e1, e2⟩
          exact hAB m (aS + m - bS) (by omega) (by omega) (by omega)
        have hx2 : ¬(cS + 1 ≤ aS + m ∧ aS + m < cS + 1 + m) := by
          rintro ⟨e1, e2⟩
          exact hAC m (aS + m - cS) (by omega) (by omega) (by omega)
        rw [ihm (aS + m), if_neg hx1, if_neg hx2]
      have hKb : (adderIdx aS bS cS m k).testBit (bS + m) = k.testBit (bS + m) := by
        have hx1 : ¬(bS ≤ bS + m ∧ bS + m < bS + m) := by omega
        have hx2 : ¬(cS + 1 ≤ bS + m ∧ bS + m < cS + 1 + m) := by
          rintro ⟨e1, e2⟩
          exact hBC m (bS + m - cS) (by omega) (by omega) (by omega)
        rw [ihm (bS + m), if_neg hx1, if_neg hx2]
      have hKc : (adderIdx aS bS cS m k).testBit (cS + m) =
          carryB (fun j => k.testBit (aS + j)) (fun j => k.testBit (bS + j)) m := by
        have hx1 : ¬(bS ≤ cS + m ∧ cS + m < bS + m) := by
          rintro ⟨e1, e2⟩
          exact hBC (cS + m - bS) m (by omega) (by omega) (by omega)
        rcases Nat.eq_zero_or_pos m with h0 | hpos
        · subst h0
          rw [ihm (cS + 0), if_neg (by omega), if_neg (by omega), hCz 0 (by omega)]
          rfl
        · rw [ihm (cS + m), if_neg hx1, if_pos (by omega),
            show cS + m - cS = m from by omega]
      have hKc1 : (adderIdx aS bS cS m k).testBit (cS + m + 1) = false := by
        have hx1 : ¬(bS ≤ cS + m + 1 ∧ cS + m + 1 < bS + m) := by
          rintro ⟨e1, e2⟩
          exact hBC (cS + m + 1 - bS) (m + 1) (by omega) (by omega) (by omega)
        have hx2 : ¬(cS + 1 ≤ cS + m + 1 ∧ cS + m + 1 < cS + 1 + m) := by omega
        rw [show cS + m + 1 = cS + (m + 1) from rfl, ihm (cS + (m + 1)),
          if_neg (by rw [show cS + (m + 1) = cS + m + 1 from rfl]; exact hx1),
          if_neg (by rw [show cS + (m + 1) = cS + m + 1 from rfl]; exact hx2),
          hCz (m + 1) (by omega)]
      by_cases hp1 : p = bS + m
      · rw [if_pos hp1, hKa, hKb, hKc, hp1, if_pos (by omega),
          show bS + m - bS = m from by omega]
        simp only [sumB]
        cases k.testBit (aS + m) <;> cases k.testBit (bS + m) <;>
          cases carryB (fun j => k.testBit (aS + j)) (fun j => k.testBit (bS + j)) m <;>
            rfl
      · by_cases hp2 : p = cS + m + 1
        · have hx1 : ¬(bS ≤ p ∧ p < bS + (m + 1)) := by
            rintro ⟨e1, e2⟩
            exact hBC (p - bS) (m + 1) (by omega) (by omega) (by omega)
          rw [if_neg hp1, if_pos hp2, hKa, hKb, hKc, hKc1, if_neg hx1,
            if_pos (by omega), show p - cS = m + 1 from by omega]
          rw [Bool.false_xor]
          rfl
        · rw [if_neg hp1, if_neg hp2, ihm p]
          by_cases hb1 : bS ≤ p ∧ p < bS + m
          · have hr1 : bS ≤ p ∧ p < bS + (m + 1) := by omega
            rw [if_pos hb1, if_pos hr1]
          · by_cases hb2 : cS + 1 ≤ p ∧ p < cS + 1 + m
            · have hr1 : ¬(bS ≤ p ∧ p < bS + (m + 1)) := by omega
              have hr2 : cS + 1 ≤ p ∧ p < cS + 1 + (m + 1) := by omega
              rw [if_neg hb1, if_neg hr1, if_pos hb2, if_pos hr2]
            · have hr1 : ¬(bS ≤ p ∧ p < bS + (m + 1)) := by omega
              have hr2 : ¬(cS + 1 ≤ p ∧ p < cS + 1 + (m + 1)) := by omega
              rw [if_neg hb1, if_neg hb2, if_neg hr1, if_neg hr2]

/-- Value of the first `w` bits of a bit sequence. -/
def bitsVal (f : ℕ → Bool) (w : ℕ) : ℕ := ∑ j ∈ Finset.range w, (f j).toNat * 2 ^ j

lemma bitsVal_lt (f : ℕ → Bool) (w : ℕ) : bitsVal f w < 2 ^ w := by
  induction w with
  | zero => simp [bitsVal]
  | succ w ih =>
      unfold bitsVal at *
      rw [Finset.sum_range_succ, pow_succ]
      cases hf : f w <;> simp [hf] <;> omega

lemma bitsVal_congr {f g : ℕ → Bool} {w : ℕ} (h : ∀ j, j < w → f j = g j) :
    bitsVal f w = bitsVal g w := by
  unfold bitsVal
  refine Finset.sum_congr rfl ?_
  intro j hj
  rw [Finset.mem_range] at hj
  rw [h j hj]

lemma full_adder_chain (A B : ℕ → Bool) (w : ℕ) :
    bitsVal A w + bitsVal B w =
      bitsVal (sumB A B) w + (carryB A B w).toNat * 2 ^ w := by
  induction w with
  | zero => rfl
  | succ w ih =>
      have hkey : (A w).toNat + (B w).toNat + (carryB A B w).toNat =
          (sumB A B w).toNat + 2 * (carryB A B (w + 1)).toNat := by
        show _ = (A w ^^ (B w ^^ carryB A B w)).toNat +
          2 * (majB (A w) (B w) (carryB A B w)).toNat
        cases A w <;> cases B w <;> cases carryB A B w <;> rfl
      unfold bitsVal at *
      rw [Finset.sum_range_succ, Finset.sum_range_succ, Finset.sum_range_succ]
      zify at ih hkey ⊢
      linear_combination ih + (2 ^ w : ℤ) * hkey

lemma mod_two_pow_eq_bitsVal (x w : ℕ) :
    x % 2 ^ w = bitsVal (fun j => x.testBit j) w := by
  induction w with
  | zero => simp [bitsVal, Nat.mod_one]
  | succ w ih =>
      rw [Nat.mod_pow_succ, ih]
      unfold bitsVal
      rw [Finset.sum_range_succ]
      have hb : x / 2 ^ w % 2 = (x.testBit w).toNat := by
        have h2 : x / 2 ^ w % 2 < 2 := Nat.mod_lt _ (by norm_num)
        have ht := Nat.testBit_to_div_mod (x := x) (i := w)
        cases hbb : x.testBit w
        · rw [hbb] at ht
          simp only [Bool.toNat_false]
          simp at ht
          omega
        · rw [hbb] at ht
          simp only [Bool.toNat_true]
          simp at ht
          omega
      rw [hb]
      ring

lemma extractTarget_eq_bitsVal (s w k : ℕ) :
    extractTarget s w k = bitsVal (fun j => k.testBit (s + j)) w := by
  unfold extractTarget
  rw [Nat.one_shiftLeft, Nat.and_pow_two_sub_one_eq_mod, mod_two_pow_eq_bitsVal]
  unfold bitsVal
  refine Finset.sum_congr rfl ?_
  intro j _
  simp only [Nat.testBit_shiftRight]

/-- C2.  For every basis state whose registers A (`num_bits` from `aS`),
B (`num_bits` from `bS`) and Carry (`num_bits + 1` from `cS`) are pairwise
non-overlapping and whose carry register is all zero, the Ripple-Carry Adder maps
`|A=a⟩|B=b⟩|Carry=0⟩` to the basis state in which A still holds `a` (A is never
written), B holds `(a + b) mod 2^num_bits`, and the final carry qubit
`Carry[num_bits]` holds the arithmetic carry-out of `a + b`. -/
theorem c2_adder_correct (aS bS cS nb n k : ℕ)
    (hA : aS + nb ≤ n) (hB : bS + nb ≤ n) (hC : cS + nb + 1 ≤ n)
    (hAB : ∀ j j', j < nb → j' < nb → aS + j ≠ bS + j')
    (hAC : ∀ j j', j < nb → j' < nb + 1 → aS + j ≠ cS + j')
    (hBC : ∀ j j', j < nb → j' < nb + 1 → bS + j ≠ cS + j')
    (hk : k < 2 ^ n) (hCzero : extractTarget cS (nb + 1) k = 0) :
    adderApply aS bS cS nb n (delta k) = (delta (adderIdx aS bS cS nb k), none) ∧
    extractTarget aS nb (adderIdx aS bS cS nb k) = extractTarget aS nb k ∧
    extractTarget bS nb (adderIdx aS bS cS nb k) =
      (extractTarget aS nb k + extractTarget bS nb k) % 2 ^ nb ∧
    (adderIdx aS bS cS nb k).testBit (cS + nb) =
      decide (2 ^ nb ≤ extractTarget aS nb k + extractTarget bS nb k) := by
  have hCz : ∀ j, j ≤ nb → k.testBit (cS + j) = false := by
    intro j hj
    have h0 := congrArg (fun x => x.testBit j) hCzero
    simp only [extractTarget_testBit, Nat.zero_testBit] at h0
    simpa [show j < nb + 1 from by omega] using h0
  have inv := adderFold_testBit aS bS cS nb n k hAB hAC hBC hCz nb le_rfl
  have hApart : extractTarget aS nb (adderIdx aS bS cS nb k) = extractTarget aS nb k := by
    rw [extractTarget_eq_bitsVal, extractTarget_eq_bitsVal]
    apply bitsVal_congr
    intro j hj
    have hx1 : ¬(bS ≤ aS + j ∧ aS + j < bS + nb) := by
      rintro ⟨e1, e2⟩
      exact hAB j (aS + j - bS) (by omega) (by omega) (by omega)
    have hx2 : ¬(cS + 1 ≤ aS + j ∧ aS + j < cS + 1 + nb) := by
      rintro ⟨e1, e2⟩
      exact hAC j (aS + j - cS) (by omega) (by omega) (by omega)
    rw [inv (aS + j), if_neg hx1, if_neg hx2]
  have hBpart : extractTarget bS nb (adderIdx aS bS cS nb k) =
      bitsVal (sumB (fun j => k.testBit (aS + j)) (fun j => k.testBit (bS + j))) nb := by
    rw [extractTarget_eq_bitsVal]
    apply bitsVal_congr
    intro j hj
    rw [inv (bS + j), if_pos (by omega), show bS + j - bS = j from by omega]
  have hchain := full_adder_chain (fun j => k.testBit (aS + j))
    (fun j => k.testBit (bS + j)) nb
  have hslt := bitsVal_lt (sumB (fun j => k.testBit (aS + j))
    (fun j => k.testBit (bS + j))) nb
  have hcarry : (adderIdx aS bS cS nb k).testBit (cS + nb) =
      carryB (fun j => k.testBit (aS + j)) (fun j => k.testBit (bS + j)) nb := by
    rcases Nat.eq_zero_or_pos nb with h0 | hpos
    · subst h0
      rw [inv (cS + 0), if_neg (by omega), if_neg (by omega), hCz 0 (by omega)]
      rfl
    · have hx1 : ¬(bS ≤ cS + nb ∧ cS + nb < bS + nb) := by
        rintro ⟨e1, e2⟩
        exact hBC (cS + nb - bS) nb (by omega) (by omega) (by omega)
      rw [inv (cS + nb), if_neg hx1, if_pos (by omega),
        show cS + nb - cS = nb from by omega]
  refine ⟨?_, hApart, ?_, ?_⟩
  · unfold adderApply
    rw [if_neg (by omega)]
    exact (adder_run_delta aS bS cS nb n hA hB hC hAB hAC hBC k hk).1
  · rw [hBpart, extractTarget_eq_bitsVal aS, extractTarget_eq_bitsVal bS, hchain,
      Nat.add_mul_mod_self_right, Nat.mod_eq_of_lt hslt]
  · rw [hcarry, extractTarget_eq_bitsVal aS, extractTarget_eq_bitsVal bS, hchain]
    cases hcv : carryB (fun j => k.testBit (aS + j)) (fun j => k.testBit (bS + j)) nb
    · rw [eq_comm, decide_eq_false_iff_not]
      simp only [Bool.toNat_false]
      omega
    · rw [eq_comm, decide_eq_true_eq]
      simp only [Bool.toNat_true]
      omega

/-- Witness for C2: the test-suite instance a = 3, b = 4 in 4-bit registers of a
13-qubit store (A at 0, B at 4, Carry at 8; basis index 67). -/
theorem c2_adder_correct_witness :
    adderApply 0 4 8 4 13 (delta 67) = (delta (adderIdx 0 4 8 4 67), none) ∧
    extractTarget 0 4 (adderIdx 0 4 8 4 67) = extractTarget 0 4 67 ∧
    extractTarget 4 4 (adderIdx 0 4 8 4 67) =
      (extractTarget 0 4 67 + extractTarget 4 4 67) % 2 ^ 4 ∧
    (adderIdx 0 4 8 4 67).testBit (8 + 4) =
      decide (2 ^ 4 ≤ extractTarget 0 4 67 + extractTarget 4 4 67) :=
  c2_adder_correct 0 4 8 4 13 67 (by norm_num) (by norm_num) (by norm_num)
    (by intro j j' h1 h2; omega) (by intro j j' h1 h2; omega)
    (by intro j j' h1 h2; omega) (by norm_num) (by decide)

/-- Index action of one iteration of `QuantumComparator::apply`'s loop (bit
position `i`): the CNOT and X turning `b_i` into the equality indicator, then the
Toffoli propagating the chained AND. -/
def compStep (aS bS rS i k : ℕ) : ℕ :=
  toffIdx (bS + i) (rS + i) (rS + 1 + i)
    (xIdx (bS + i)
      (cnotIdx (aS + i) (bS + i) k))

/-- Index action of the full comparator (the initial X on `result[0]` followed by
the per-bit blocks) on basis states. -/
def compIdx (aS bS rS nb k : ℕ) : ℕ :=
  (List.range nb).foldl (fun x i => compStep aS bS rS i x) (xIdx rS k)

/-- The chained AND computed by the comparator: `eqChain A B j` is true iff the
first `j` bit positions of `A` and `B` agree. -/
def eqChain (A B : ℕ → Bool) : ℕ → Bool
  | 0 => true
  | j + 1 => (!(A j ^^ B j)) && eqChain A B j

lemma compStep_lt {aS bS rS i n K : ℕ} (hb : bS + i < n) (hr1 : rS + 1 + i < n)
    (hK : K < 2 ^ n) : compStep aS bS rS i K < 2 ^ n :=
  toffIdx_lt hr1 (xIdx_lt hb (cnotIdx_lt hb hK))

lemma compIdx_succ (aS bS rS nb k : ℕ) :
    compIdx aS bS rS (nb + 1) k = compStep aS bS rS nb (compIdx aS bS rS nb k) := by
  unfold compIdx
  rw [List.range_succ, List.foldl_append]
  simp only [List.foldl_cons, List.foldl_nil]

lemma compGateList_succ (aS bS rS nb : ℕ) :
    compGateList aS bS rS (nb + 1) = compGateList aS bS rS nb ++
      [mkCNOT ((aS + nb : ℕ) : ℤ) ((bS + nb : ℕ) : ℤ),
       mkXGate ((bS + nb : ℕ) : ℤ),
       mkToffoli ((bS + nb : ℕ) : ℤ) ((rS + nb : ℕ) : ℤ) ((rS + 1 + nb : ℕ) : ℤ)] := by
  unfold compGateList
  rw [List.range_succ, List.flatMap_append, List.flatMap_cons, List.flatMap_nil,
    List.append_nil, List.cons_append]

lemma comp_block_delta (n aS bS rS i K : ℕ)
    (ha : aS + i < n) (hb : bS + i < n) (hr1 : rS + 1 + i < n)
    (hab : aS + i ≠ bS + i) (hbr : bS + i ≠ rS + i) (hbr1 : bS + i ≠ rS + 1 + i)
    (hK : K < 2 ^ n) :
    runChecked n
      [mkCNOT ((aS + i : ℕ) : ℤ) ((bS + i : ℕ) : ℤ),
       mkXGate ((bS + i : ℕ) : ℤ),
       mkToffoli ((bS + i : ℕ) : ℤ) ((rS + i : ℕ) : ℤ) ((rS + 1 + i : ℕ) : ℤ)]
      (delta K) = (delta (compStep aS bS rS i K), none) := by
  have hr : rS + i < n := by omega
  rw [mkCNOT_nat _ _ hab, mkXGate_nat, mkToffoli_nat _ _ _ hbr1 (by omega) hbr]
  rw [runChecked_cons_ok _ _ _ _ _ (applyChecked_cnot_delta n _ _ K ha hb hab hK)]
  have h1 : cnotIdx (aS + i) (bS + i) K < 2 ^ n := cnotIdx_lt hb hK
  rw [runChecked_cons_ok _ _ _ _ _ (applyChecked_x_delta n _ _ hb h1)]
  have h2 : xIdx (bS + i) (cnotIdx (aS + i) (bS + i) K) < 2 ^ n := xIdx_lt hb h1
  rw [runChecked_cons_ok _ _ _ _ _
    (applyChecked_toffoli_delta n _ _ _ _ hb hr hr1 hbr1 (by omega) h2)]
  rfl

lemma comp_run_delta (aS bS rS nb n : ℕ)
    (hA : aS + nb ≤ n) (hB : bS + nb ≤ n) (hR : rS + nb + 1 ≤ n)
    (hAB : ∀ j j', j < nb → j' < nb → aS + j ≠ bS + j')
    (hBR : ∀ j j', j < nb → j' < nb + 1 → bS + j ≠ rS + j')
    (k : ℕ) (hk : k < 2 ^ n) :
    runChecked n (compGateList aS bS rS nb) (delta k) =
      (delta (compIdx aS bS rS nb k), none) ∧ compIdx aS bS rS nb k < 2 ^ n := by
  induction nb with
  | zero =>
      constructor
      · show runChecked n [mkXGate (rS : ℤ)] (delta k) = _
        rw [mkXGate_nat rS]
        rw [runChecked_cons_ok _ _ _ _ _ (applyChecked_x_delta n rS k (by omega) hk)]
        rfl
      · exact xIdx_lt (by omega) hk
  | succ nb ih =>
      obtain ⟨hrun, hlt⟩ := ih (by omega) (by omega) (by omega)
        (fun j j' hj hj' => hAB j j' (by omega) (by omega))
        (fun j j' hj hj' => hBR j j' (by omega) (by omega))
      have hblock := comp_block_delta n aS bS rS nb (compIdx aS bS rS nb k)
        (by omega) (by omega) (by omega)
        (hAB nb nb (by omega) (by omega))
        (hBR nb nb (by omega) (by omega))
        (by have := hBR nb (nb + 1) (by omega) (by omega); omega) hlt
      refine ⟨?_, ?_⟩
      · rw [compGateList_succ, runChecked_append_ok _ _ _ _ _ hrun, hblock,
          compIdx_succ]
      · rw [compIdx_succ]
        exact compStep_lt (by omega) (by omega) hlt

lemma compStep_testBit (aS bS rS i K p : ℕ)
    (hbr : bS + i ≠ rS + i) (hbr1 : bS + i ≠ rS + 1 + i) :
    (compStep aS bS rS i K).testBit p =
      if p = bS + i then !(K.testBit (aS + i) ^^ K.testBit (bS + i))
      else if p = rS + 1 + i then
        K.testBit (rS + 1 + i) ^^
          ((!(K.testBit (aS + i) ^^ K.testBit (bS + i))) && K.testBit (rS + i))
      else K.testBit p := by
  unfold compStep
  simp only [toffIdx_testBit, xIdx_testBit, cnotIdx_testBit]
  by_cases hp1 : p = bS + i
  · rw [if_pos hp1, hp1]
    simp only [show ((bS + i = bS + i) = True) from by simp,
      show ((bS + i = rS + 1 + i) = False) from by simp [hbr1],
      show ((rS + i = bS + i) = False) from by simp [Ne.symm hbr]]
    cases K.testBit (aS + i) <;> cases K.testBit (bS + i) <;>
      cases K.testBit (rS + i) <;> rfl
  · by_cases hp2 : p = rS + 1 + i
    · rw [if_neg hp1, if_pos hp2, hp2]
      simp only [show ((rS + 1 + i = bS + i) = False) from by simp [Ne.symm hbr1],
        show ((rS + 1 + i = rS + 1 + i) = True) from by simp,
        show ((bS + i = bS + i) = True) from by simp,
        show ((rS + i = bS + i) = False) from by simp [Ne.symm hbr]]
      cases K.testBit (aS + i) <;> cases K.testBit (bS + i) <;>
        cases K.testBit (rS + i) <;> cases K.testBit (rS + 1 + i) <;> rfl
    · rw [if_neg hp1, if_neg hp2]
      simp only [show ((p = bS + i) = False) from by simp [hp1],
        show ((p = rS + 1 + i) = False) from by simp [hp2]]
      cases K.testBit p <;> rfl

lemma compFold_testBit (aS bS rS nb n k : ℕ)
    (hAB : ∀ j j', j < nb → j' < nb → aS + j ≠ bS + j')
    (hAR : ∀ j j', j < nb → j' < nb + 1 → aS + j ≠ rS + j')
    (hBR : ∀ j j', j < nb → j' < nb + 1 → bS + j ≠ rS + j')
    (hRz : ∀ j, j ≤ nb → k.testBit (rS + j) = false) :
    ∀ m, m ≤ nb → ∀ p,
      (compIdx aS bS rS m k).testBit p =
        if p = rS then true
        else if bS ≤ p ∧ p < bS + m then
          !(k.testBit (aS + (p - bS)) ^^ k.testBit (bS + (p - bS)))
        else if rS + 1 ≤ p ∧ p < rS + 1 + m then
          eqChain (fun j => k.testBit (aS + j)) (fun j => k.testBit (bS + j)) (p - rS)
        else k.testBit p := by
  intro m
  induction m with
  | zero =>
      intro _ p
      show (xIdx rS k).testBit p = _
      rw [xIdx_testBit]
      by_cases hp : p = rS
      · rw [if_pos hp, hp]
        have h0 : k.testBit rS = false := by
          have := hRz 0 (by omega)
          simpa using this
        simp [h0]
      · rw [if_neg hp, if_neg (by omega), if_neg (by omega)]
        simp [hp]
  | succ m ih =>
      intro hm p
      have ihm := ih (by omega)
      have dab : aS + m ≠ bS + m := hAB m m (by omega) (by omega)
      have dbr : bS + m ≠ rS + m := hBR m m (by omega) (by omega)
      have dbr1 : bS + m ≠ rS + 1 + m := by
        have := hBR m (m + 1) (by omega) (by omega)
        omega
      rw [compIdx_succ, compStep_testBit _ _ _ _ _ _ dbr dbr1]
      have hKa : (compIdx aS bS rS m k).testBit (aS + m) = k.testBit (aS + m) := by
        have hx0 : ¬(aS + m = rS) := by
          have := hAR m 0 (by omega) (by omega)
          omega
        have hx1 : ¬(bS ≤ aS + m ∧ aS + m < bS + m) := by
          rintro ⟨e1, e2⟩
          exact hAB m (aS + m - bS) (by omega) (by omega) (by omega)
        have hx2 : ¬(rS + 1 ≤ aS + m ∧ aS + m < rS + 1 + m) := by
          rintro ⟨e1, e2⟩
          exact hAR m (aS + m - rS) (by omega) (by omega) (by omega)
        rw [ihm (aS + m), if_neg hx0, if_neg hx1, if_neg hx2]
      have hKb : (compIdx aS bS rS m k).testBit (bS + m) = k.testBit (bS + m) := by
        have hx0 : ¬(bS + m = rS) := by
          have := hBR m 0 (by omega) (by omega)
          omega
        have hx1 : ¬(bS ≤ bS + m ∧ bS + m < bS + m) := by omega
        have hx2 : ¬(rS + 1 ≤ bS + m ∧ bS + m < rS + 1 + m) := by
          rintro ⟨e1, e2⟩
          exact hBR m (bS + m - rS) (by omega) (by omega) (by omega)
        rw [ihm (bS + m), if_neg hx0, if_neg hx1, if_neg hx2]
      have hKr : (compIdx aS bS rS m k).testBit (rS + m) =
          eqChain (fun j => k.testBit (aS + j)) (fun j => k.testBit (bS + j)) m := by
        rcases Nat.eq_zero_or_pos m with h0 | hpos
        · subst h0
          rw [ihm (rS + 0), if_pos (by omega)]
          rfl
        · have hx0 : ¬(rS + m = rS) := by omega
          have hx1 : ¬(bS ≤ rS + m ∧ rS + m < bS + m) := by
            rintro ⟨e1, e2⟩
            exact hBR (rS + m - bS) m (by omega) (by omega) (by omega)
          rw [ihm (rS + m), if_neg hx0, if_neg hx1, if_pos (by omega),
            show rS + m - rS = m from by omega]
      have hKr1 : (compIdx aS bS rS m k).testBit (rS + 1 + m) = false := by
        have hx0 : ¬(rS + 1 + m = rS) := by omega
        have hx1 : ¬(bS ≤ rS + 1 + m ∧ rS + 1 + m < bS + m) := by
          rintro ⟨e1, e2⟩
          exact hBR (rS + 1 + m - bS) (m + 1) (by omega) (by omega) (by omega)
        have hx2 : ¬(rS + 1 ≤ rS + 1 + m ∧ rS + 1 + m < rS + 1 + m) := by omega
        rw [ihm (rS + 1 + m), if_neg hx0, if_neg hx1, if_neg hx2,
          show rS + 1 + m = rS + (m + 1) from by omega, hRz (m + 1) (by omega)]
      by_cases hp1 : p = bS + m
      · have hpr : ¬(p = rS) := by
          have := hBR m 0 (by omega) (by omega)
          omega
        rw [if_pos hp1, hKa, hKb, if_neg hpr, if_pos (by omega),
          show p - bS = m from by omega]
      · by_cases hp2 : p = rS + 1 + m
        · have hpr : ¬(p = rS) := by omega
          have hx1 : ¬(bS ≤ p ∧ p < bS + (m + 1)) := by
            rintro ⟨e1, e2⟩
            exact hBR (p - bS) (m + 1) (by omega) (by omega) (by omega)
          rw [if_neg hp1, if_pos hp2, hKa, hKb, hKr, hKr1, if_neg hpr, if_neg hx1,
            if_pos (by omega), show p - rS = m + 1 from by omega]
          rw [Bool.false_xor]
          rfl
        · rw [if_neg hp1, if_neg hp2, ihm p]
          by_cases hp0 : p = rS
          · rw [if_pos hp0, if_pos hp0]
          · by_cases hb1 : bS ≤ p ∧ p < bS + m
            · have hr1 : bS ≤ p ∧ p < bS + (m + 1) := by omega
              rw [if_neg hp0, if_neg hp0, if_pos hb1, if_pos hr1]
            · by_cases hb2 : rS + 1 ≤ p ∧ p < rS + 1 + m
              · have hr1 : ¬(bS ≤ p ∧ p < bS + (m + 1)) := by omega
                have hr2 : rS + 1 ≤ p ∧ p < rS + 1 + (m + 1) := by omega
                rw [if_neg hp0, if_neg hp0, if_neg hb1, if_neg hr1, if_pos hb2,
                  if_pos hr2]
              · have hr1 : ¬(bS ≤ p ∧ p < bS + (m + 1)) := by omega
                have hr2 : ¬(rS + 1 ≤ p ∧ p < rS + 1 + (m + 1)) := by omega
                rw [if_neg hp0, if_neg hp0, if_neg hb1, if_neg hb2, if_neg hr1,
                  if_neg hr2]

lemma eqChain_true_iff (A B : ℕ → Bool) (w : ℕ) :
    eqChain A B w = true ↔ ∀ j, j < w → A j = B j := by
  induction w with
  | zero => simp [eqChain]
  | succ w ih =>
      rw [show eqChain A B (w + 1) = ((!(A w ^^ B w)) && eqChain A B w) from rfl,
        Bool.and_eq_true, ih]
      constructor
      · rintro ⟨h1, h2⟩ j hj
        rcases (by omega : j < w ∨ j = w) with h | h
        · exact h2 j h
        · subst h
          revert h1
          cases A j <;> cases B j <;> simp
      · intro h
        refine ⟨?_, fun j hj => h j (by omega)⟩
        rw [h w (by omega)]
        cases B w <;> rfl

lemma extractTarget_eq_iff (aS bS nb k : ℕ) :
    extractTarget aS nb k = extractTarget bS nb k ↔
      ∀ j, j < nb → k.testBit (aS + j) = k.testBit (bS + j) := by
  constructor
  · intro h j hj
    have hh := congrArg (fun x => x.testBit j) h
    simp only [extractTarget_testBit] at hh
    simpa [hj] using hh
  · intro h
    apply Nat.eq_of_testBit_eq
    intro j
    rw [extractTarget_testBit, extractTarget_testBit]
    by_cases hj : j < nb
    · simp [hj, h j hj]
    · simp [hj]

/-- C5.  For every basis state in which registers A and B (`num_bits` each) and the
result chain (`num_bits + 1` qubits from `resultStart`) are pairwise disjoint and
the result chain is all zero, the Equality Comparator produces the basis state
whose final result qubit `result[num_bits]` is 1 iff the original register values
satisfy A = B. -/
theorem c5_comparator_correct (aS bS rS nb n k : ℕ)
    (hA : aS + nb ≤ n) (hB : bS + nb ≤ n) (hR : rS + nb + 1 ≤ n)
    (hAB : ∀ j j', j < nb → j' < nb → aS + j ≠ bS + j')
    (hAR : ∀ j j', j < nb → j' < nb + 1 → aS + j ≠ rS + j')
    (hBR : ∀ j j', j < nb → j' < nb + 1 → bS + j ≠ rS + j')
    (hk : k < 2 ^ n) (hRzero : extractTarget rS (nb + 1) k = 0) :
    compApply aS bS rS nb n (delta k) = (delta (compIdx aS bS rS nb k), none) ∧
    ((compIdx aS bS rS nb k).testBit (rS + nb) = true ↔
      extractTarget aS nb k = extractTarget bS nb k) := by
  have hRz : ∀ j, j ≤ nb → k.testBit (rS + j) = false := by
    intro j hj
    have h0 := congrArg (fun x => x.testBit j) hRzero
    simp only [extractTarget_testBit, Nat.zero_testBit] at h0
    simpa [show j < nb + 1 from by omega] using h0
  have inv := compFold_testBit aS bS rS nb n k hAB hAR hBR hRz nb le_rfl
  constructor
  · unfold compApply
    rw [if_neg (by omega)]
    exact (comp_run_delta aS bS rS nb n hA hB hR hAB hBR k hk).1
  · have hres : (compIdx aS bS rS nb k).testBit (rS + nb) =
        eqChain (fun j => k.testBit (aS + j)) (fun j => k.testBit (bS + j)) nb := by
      rcases Nat.eq_zero_or_pos nb with h0 | hpos
      · subst h0
        rw [inv (rS + 0), if_pos (by omega)]
        rfl
      · have hx0 : ¬(rS + nb = rS) := by omega
        have hx1 : ¬(bS ≤ rS + nb ∧ rS + nb < bS + nb) := by
          rintro ⟨e1, e2⟩
          exact hBR (rS + nb - bS) nb (by omega) (by omega) (by omega)
        rw [inv (rS + nb), if_neg hx0, if_neg hx1, if_pos (by omega),
          show rS + nb - rS = nb from by omega]
    rw [hres, eqChain_true_iff, extractTarget_eq_iff]

/-- Witness for C5: A = 4, B = 4 in 3-bit registers of a 10-qubit store (A at 0,
B at 3, result chain at 6; basis index 36). -/
theorem c5_comparator_correct_witness :
    compApply 0 3 6 3 10 (delta 36) = (delta (compIdx 0 3 6 3 36), none) ∧
    ((compIdx 0 3 6 3 36).testBit (6 + 3) = true ↔
      extractTarget 0 3 36 = extractTarget 3 3 36) :=
  c5_comparator_correct 0 3 6 3 10 36 (by norm_num) (by norm_num) (by norm_num)
    (by intro j j' h1 h2; omega) (by intro j j' h1 h2; omega)
    (by intro j j' h1 h2; omega) (by norm_num) (by decide)

lemma div_pow_mod_two_eq_toNat (x w : ℕ) : x / 2 ^ w % 2 = (x.testBit w).toNat := by
  have h2 : x / 2 ^ w % 2 < 2 := Nat.mod_lt _ (by norm_num)
  have ht := Nat.testBit_to_div_mod (x := x) (i := w)
  cases hbb : x.testBit w
  · rw [hbb] at ht
    simp only [Bool.toNat_false]
    simp at ht
    omega
  · rw [hbb] at ht
    simp only [Bool.toNat_true]
    simp at ht
    omega

lemma mod_two_pow_succ_testBit (x g : ℕ) :
    x % 2 ^ (g + 1) = x % 2 ^ g + (x.testBit g).toNat * 2 ^ g := by
  rw [Nat.mod_pow_succ, div_pow_mod_two_eq_toNat]
  ring

lemma testBit_mod_high {x nq p : ℕ} (hp : p < nq) :
    (x % 2 ^ nq).testBit p = x.testBit p := by
  rw [Nat.testBit_mod_two_pow]
  simp [hp]

lemma testBit_div_pow (x nq p : ℕ) : (x / 2 ^ nq).testBit p = x.testBit (nq + p) := by
  rw [← Nat.shiftRight_eq_div_pow, Nat.testBit_shiftRight]

lemma add_shift_testBit {x : ℕ} (y' nq : ℕ) (hx : x < 2 ^ nq) (p : ℕ) :
    (x + 2 ^ nq * y').testBit p =
      if p < nq then x.testBit p else y'.testBit (p - nq) := by
  by_cases hp : p < nq
  · rw [if_pos hp, ← testBit_mod_high hp (x := x + 2 ^ nq * y'),
      Nat.add_mul_mod_self_left, Nat.mod_eq_of_lt hx]
  · rw [if_neg hp, show p = nq + (p - nq) from by omega, ← testBit_div_pow,
      Nat.add_mul_div_left _ _ (Nat.two_pow_pos nq), Nat.div_eq_of_lt hx, Nat.zero_add]
    congr 1
    omega

lemma lor_shift_eq_add {x : ℕ} (y' nq : ℕ) (hx : x < 2 ^ nq) :
    x ||| (y' <<< nq) = x + 2 ^ nq * y' := by
  apply Nat.eq_of_testBit_eq
  intro p
  rw [Nat.testBit_lor, Nat.testBit_shiftLeft, add_shift_testBit y' nq hx]
  by_cases hp : p < nq
  · rw [if_pos hp]
    simp [show ¬p ≥ nq from by omega]
  · rw [if_neg hp]
    have hxb : x.testBit p = false :=
      Nat.testBit_lt_two_pow
        (lt_of_lt_of_le hx (Nat.pow_le_pow_right (by norm_num) (by omega)))
    simp [hxb, show p ≥ nq from by omega]

lemma decomp_div_mod (nq tq i : ℕ) (hi : i < 2 ^ (nq + tq)) :
    i % 2 ^ nq < 2 ^ nq ∧ i / 2 ^ nq < 2 ^ tq ∧ i = i % 2 ^ nq + 2 ^ nq * (i / 2 ^ nq) := by
  refine ⟨Nat.mod_lt _ (Nat.two_pow_pos nq), ?_, (Nat.mod_add_div i (2 ^ nq)).symm⟩
  apply Nat.div_lt_of_lt_mul
  rw [← pow_add]
  exact hi

lemma extractTarget_eq_div {nq tq i : ℕ} (hi : i < 2 ^ (nq + tq)) :
    extractTarget nq tq i = i / 2 ^ nq := by
  unfold extractTarget
  rw [Nat.one_shiftLeft, Nat.and_pow_two_sub_one_eq_mod, Nat.shiftRight_eq_div_pow,
    Nat.mod_eq_of_lt (decomp_div_mod nq tq i hi).2.1]

lemma clearTarget_low {nq tq i : ℕ} (hi : i < 2 ^ (nq + tq)) :
    clearTarget nq tq i = i % 2 ^ nq := by
  apply Nat.eq_of_testBit_eq
  intro p
  rw [clearTarget_testBit, Nat.testBit_mod_two_pow]
  by_cases hp : p < nq
  · simp [hp, show ¬(nq ≤ p ∧ p - nq < tq) from by omega]
  · by_cases hp2 : p < nq + tq
    · simp [hp, show nq ≤ p from by omega, show p - nq < tq from by omega]
    · have hb : i.testBit p = false :=
        Nat.testBit_lt_two_pow
          (lt_of_lt_of_le hi (Nat.pow_le_pow_right (by norm_num) (by omega)))
      simp [hb, hp]

lemma cmmDest_decompose {nq tq mult md i : ℕ} (hi : i < 2 ^ (nq + tq)) :
    cmmDest nq tq mult md i = i % 2 ^ nq + 2 ^ nq * (mult * (i / 2 ^ nq) % md) := by
  unfold cmmDest replaceTarget
  rw [clearTarget_low hi, extractTarget_eq_div hi,
    lor_shift_eq_add _ nq (Nat.mod_lt _ (Nat.two_pow_pos nq))]

lemma cmmHit_none_spec {control ts tc mult md j : ℕ} :
    ∀ {N : ℕ}, cmmHit control ts tc mult md j N = none →
      ∀ i, i < N → i &&& 1 <<< control ≠ 0 → cmmDest ts tc mult md i ≠ j := by
  intro N
  induction N with
  | zero => intro _ i hi; omega
  | succ N ih =>
      intro h i hi hc hd
      rw [cmmHit_succ] at h
      split at h
      · exact absurd h (by simp)
      · rename_i hneg
        rcases (by omega : i < N ∨ i = N) with hh | hh
        · exact ih h i hh hc hd
        · subst hh
          exact hneg ⟨hc, hd⟩

lemma exists_mul_mod_eq {p md d : ℕ} (hmd : 0 < md) (hcop : Nat.Coprime p md)
    (hd : d < md) : ∃ y0, y0 < md ∧ p * y0 % md = d := by
  have hinj : Function.Injective
      (fun y : Fin md => (⟨p * y % md, Nat.mod_lt _ hmd⟩ : Fin md)) := by
    intro y y' h
    have h1 : p * (y : ℕ) % md = p * (y' : ℕ) % md := congrArg Fin.val h
    have h2 : (y : ℕ) ≡ (y' : ℕ) [MOD md] :=
      Nat.ModEq.cancel_left_of_coprime (by rw [Nat.gcd_comm]; exact hcop) h1
    have h3 : (y : ℕ) % md = (y' : ℕ) % md := h2
    rw [Nat.mod_eq_of_lt y.isLt, Nat.mod_eq_of_lt y'.isLt] at h3
    exact Fin.ext h3
  have hsurj := Finite.injective_iff_surjective.mp hinj
  obtain ⟨y0, hy0⟩ := hsurj ⟨d, hd⟩
  exact ⟨(y0 : ℕ), y0.isLt, congrArg Fin.val hy0⟩

lemma coprime_mod_of_coprime {md : ℕ} (a : ℕ) (ha : Nat.Coprime a md) :
    Nat.Coprime (a % md) md := by
  have h1 : Nat.gcd (a % md) md = Nat.gcd md a := (Nat.gcd_rec md a).symm
  unfold Nat.Coprime at ha ⊢
  rw [h1, Nat.gcd_comm]
  exact ha

lemma powersOf_coprime {base md : ℕ} (hcop : Nat.Coprime base md) :
    ∀ g, Nat.Coprime (powersOf base md g) md := by
  intro g
  induction g with
  | zero => exact coprime_mod_of_coprime base hcop
  | succ g ih =>
      exact coprime_mod_of_coprime _ ((ih.symm.mul_right ih.symm).symm)

lemma powersOf_val (base md : ℕ) : ∀ g, powersOf base md g = base ^ 2 ^ g % md := by
  intro g
  induction g with
  | zero =>
      show base % md = base ^ 2 ^ 0 % md
      rw [pow_zero, pow_one]
  | succ g ih =>
      show powersOf base md g * powersOf base md g % md = _
      rw [ih, ← Nat.mul_mod, ← pow_add,
        show 2 ^ g + 2 ^ g = 2 ^ (g + 1) from by rw [pow_succ]; ring]

lemma coprime_pos_residue {a md : ℕ} (hmd : 2 ≤ md) (hcop : Nat.Coprime a md)
    (hlt : a < md) : 0 < a := by
  rcases Nat.eq_zero_or_pos a with h0 | h
  · subst h0
    unfold Nat.Coprime at hcop
    simp at hcop
    omega
  · exact h

lemma modexp_step_set {base md x g : ℕ} (hbit : x.testBit g = true) :
    base ^ (x % 2 ^ (g + 1)) % md =
      powersOf base md g * (base ^ (x % 2 ^ g) % md) % md := by
  rw [mod_two_pow_succ_testBit, hbit, Bool.toNat_true, one_mul, pow_add,
    powersOf_val, ← Nat.mul_mod, mul_comm (base ^ (x % 2 ^ g)) (base ^ 2 ^ g)]

lemma modexp_step_clear {base md x g : ℕ} (hbit : x.testBit g = false) :
    base ^ (x % 2 ^ (g + 1)) % md = base ^ (x % 2 ^ g) % md := by
  rw [mod_two_pow_succ_testBit, hbit, Bool.toNat_false, zero_mul, Nat.add_zero]

lemma targetQubits_facts {md : ℕ} (hmd : 2 ≤ md) :
    1 ≤ targetQubitsOf md ∧ md ≤ 2 ^ targetQubitsOf md := by
  have hsz : Nat.size (md - 1) ≠ 0 := by
    intro h
    rw [Nat.size_eq_zero] at h
    omega
  have heq : targetQubitsOf md = Nat.size (md - 1) := by
    unfold targetQubitsOf
    rw [if_neg hsz]
  constructor
  · rw [heq]
    omega
  · rw [heq]
    have := Nat.lt_size_self (md - 1)
    omega

lemma xor_shift_div_eq {h nq : ℕ} (hh : h < nq) (i : ℕ) :
    (i ^^^ 1 <<< h) / 2 ^ nq = i / 2 ^ nq := by
  apply Nat.eq_of_testBit_eq
  intro p
  rw [← Nat.shiftRight_eq_div_pow, ← Nat.shiftRight_eq_div_pow, Nat.testBit_shiftRight,
    Nat.testBit_shiftRight, testBit_xor_shift]
  simp [show ¬(nq + p = h) from by omega]

lemma xor_shift_mod_eq {h nq : ℕ} (hh : h < nq) (i : ℕ) :
    (i ^^^ 1 <<< h) % 2 ^ nq = (i % 2 ^ nq) ^^^ 1 <<< h := by
  apply Nat.eq_of_testBit_eq
  intro p
  rw [Nat.testBit_mod_two_pow, testBit_xor_shift, testBit_xor_shift,
    Nat.testBit_mod_two_pow]
  by_cases hp : p < nq
  · simp [hp]
  · simp [hp, show ¬(p = h) from by omega]

lemma lt_two_pow_succ_iff_of_clear {x h : ℕ} (hb : x.testBit h = false) :
    x < 2 ^ (h + 1) ↔ x < 2 ^ h := by
  constructor
  · intro hx
    have h1 : x % 2 ^ (h + 1) = x := Nat.mod_eq_of_lt hx
    have h2 : x % 2 ^ (h + 1) = x % 2 ^ h + (x.testBit h).toNat * 2 ^ h :=
      mod_two_pow_succ_testBit x h
    rw [hb, Bool.toNat_false, zero_mul, Nat.add_zero] at h2
    have h3 : x % 2 ^ h < 2 ^ h := Nat.mod_lt _ (Nat.two_pow_pos h)
    omega
  · intro hx
    exact lt_of_lt_of_le hx (Nat.pow_le_pow_right (by norm_num) (by omega))

lemma xor_lt_pow_iff_of_set {x h : ℕ} (hb : x.testBit h = true) :
    x ^^^ 1 <<< h < 2 ^ h ↔ x < 2 ^ (h + 1) := by
  constructor
  · intro hx
    apply lt_two_pow_of_high_bits
    intro p hp
    have h1 : (x ^^^ 1 <<< h).testBit p = false :=
      Nat.testBit_lt_two_pow
        (lt_of_lt_of_le hx (Nat.pow_le_pow_right (by norm_num) (by omega)))
    rw [testBit_xor_shift] at h1
    simpa [show ¬(p = h) from by omega] using h1
  · intro hx
    apply lt_two_pow_of_high_bits
    intro p hp
    rw [testBit_xor_shift]
    by_cases hph : p = h
    · subst hph
      simp [hb]
    · have h1 : x.testBit p = false :=
        Nat.testBit_lt_two_pow
          (lt_of_lt_of_le hx (Nat.pow_le_pow_right (by norm_num) (by omega)))
      simp [hph, h1]

/-- The driver's state after the Hadamards on control qubits `0, …, h−1`: amplitude
`(1/√2)^h` on every basis index whose target field is 1 and whose control value is
below `2^h`, and 0 elsewhere. -/
def hadState (nq h : ℕ) : Amps := fun i =>
  if i / 2 ^ nq = 1 ∧ i % 2 ^ nq < 2 ^ h then (invSqrt2 : ℂ) ^ h else 0

lemma hadState_high {nq tq h i : ℕ} (htq : 1 ≤ tq) (hi : ¬i < 2 ^ (nq + tq)) :
    hadState nq h i = 0 := by
  unfold hadState
  rw [if_neg ?_]
  rintro ⟨h1, h2⟩
  have : i < 2 ^ nq * 2 := by
    have hdm := Nat.div_add_mod i (2 ^ nq)
    rw [h1, mul_one] at hdm
    have h3 : i % 2 ^ nq < 2 ^ nq := Nat.mod_lt _ (Nat.two_pow_pos nq)
    omega
  have h4 : 2 ^ nq * 2 ≤ 2 ^ (nq + tq) := by
    rw [pow_add]
    have : (2 : ℕ) ≤ 2 ^ tq := by
      calc (2 : ℕ) = 2 ^ 1 := (pow_one 2).symm
        _ ≤ 2 ^ tq := Nat.pow_le_pow_right (by norm_num) htq
    exact Nat.mul_le_mul_left _ this
  omega

lemma orchInit_eq_hadState (nq : ℕ) : orchInit nq = hadState nq 0 := by
  funext i
  unfold orchInit hadState
  rw [Nat.one_shiftLeft]
  by_cases hi : i = 2 ^ nq
  · subst hi
    rw [if_pos rfl, if_pos ?_, pow_zero]
    constructor
    · rw [Nat.div_self (Nat.two_pow_pos nq)]
    · simp [Nat.mod_self]
  · rw [if_neg hi, if_neg ?_]
    rintro ⟨h1, h2⟩
    rw [pow_zero] at h2
    have h3 : i % 2 ^ nq = 0 := by omega
    have hdm := Nat.div_add_mod i (2 ^ nq)
    rw [h1, mul_one] at hdm
    omega

lemma hApply_hadState {nq tq h : ℕ} (htq : 1 ≤ tq) (hh : h < nq) :
    hApply (nq + tq) h (hadState nq h) = hadState nq (h + 1) := by
  funext i
  unfold hApply
  by_cases hi : i < 2 ^ (nq + tq)
  · rw [if_pos hi]
    have hdiv : (i ^^^ 1 <<< h) / 2 ^ nq = i / 2 ^ nq := xor_shift_div_eq hh i
    have hmod : (i ^^^ 1 <<< h) % 2 ^ nq = (i % 2 ^ nq) ^^^ 1 <<< h :=
      xor_shift_mod_eq hh i
    have hbit : i.testBit h = (i % 2 ^ nq).testBit h := (testBit_mod_high hh).symm
    by_cases hd : i / 2 ^ nq = 1
    · by_cases hb : i &&& 1 <<< h = 0
      · rw [if_pos hb]
        rw [and_shift_eq_zero_iff, hbit] at hb
        have hx2 : ¬((i % 2 ^ nq) ^^^ 1 <<< h) < 2 ^ h := by
          intro hcon
          have := Nat.testBit_lt_two_pow (x := (i % 2 ^ nq) ^^^ 1 <<< h) (i := h) hcon
          rw [testBit_xor_shift, hb] at this
          simp at this
        unfold hadState
        rw [hdiv, hmod]
        have hxj : ¬(i / 2 ^ nq = 1 ∧ (i % 2 ^ nq) ^^^ 1 <<< h < 2 ^ h) :=
          fun hc => hx2 hc.2
        rw [if_neg hxj]
        by_cases hx : i % 2 ^ nq < 2 ^ h
        · rw [if_pos ⟨hd, hx⟩,
            if_pos ⟨hd, (lt_two_pow_succ_iff_of_clear hb).mpr hx⟩]
          ring
        · have hn1 : ¬(i / 2 ^ nq = 1 ∧ i % 2 ^ nq < 2 ^ h) := fun hc => hx hc.2
          have hn2 : ¬(i / 2 ^ nq = 1 ∧ i % 2 ^ nq < 2 ^ (h + 1)) :=
            fun hc => hx ((lt_two_pow_succ_iff_of_clear hb).mp hc.2)
          rw [if_neg hn1, if_neg hn2]
          ring
      · rw [if_neg hb]
        have hb' : (i % 2 ^ nq).testBit h = true := by
          rw [← hbit]
          exact (and_one_shiftLeft i h).mp hb
        have hx1 : ¬(i % 2 ^ nq) < 2 ^ h := by
          intro hcon
          rw [Nat.testBit_lt_two_pow hcon] at hb'
          exact Bool.false_ne_true hb'
        unfold hadState
        rw [hdiv, hmod]
        have hni : ¬(i / 2 ^ nq = 1 ∧ i % 2 ^ nq < 2 ^ h) := fun hc => hx1 hc.2
        rw [if_neg hni]
        by_cases hx : (i % 2 ^ nq) ^^^ 1 <<< h < 2 ^ h
        · rw [if_pos ⟨hd, hx⟩, if_pos ⟨hd, (xor_lt_pow_iff_of_set hb').mp hx⟩]
          ring
        · have hn1 : ¬(i / 2 ^ nq = 1 ∧ (i % 2 ^ nq) ^^^ 1 <<< h < 2 ^ h) :=
            fun hc => hx hc.2
          have hn2 : ¬(i / 2 ^ nq = 1 ∧ i % 2 ^ nq < 2 ^ (h + 1)) :=
            fun hc => hx ((xor_lt_pow_iff_of_set hb').mpr hc.2)
          rw [if_neg hn1, if_neg hn2]
          ring
    · have hdneg : ∀ w, hadState nq w i = 0 := by
        intro w
        unfold hadState
        rw [if_neg (fun hc => hd hc.1)]
      have hdneg' : ∀ w, hadState nq w (i ^^^ 1 <<< h) = 0 := by
        intro w
        unfold hadState
        rw [hdiv, if_neg (fun hc => hd hc.1)]
      by_cases hb : i &&& 1 <<< h = 0
      · rw [if_pos hb, hdneg h, hdneg' h, hdneg (h + 1)]
        ring
      · rw [if_neg hb, hdneg h, hdneg' h, hdneg (h + 1)]
        ring
  · rw [if_neg hi, hadState_high htq hi, hadState_high htq hi]

lemma had_stage (nq tq : ℕ) (htq : 1 ≤ tq) :
    ∀ h, h ≤ nq →
      runChecked (nq + tq) ((List.range h).map (fun i => mkHadamard (i : ℕ)))
        (orchInit nq) = (hadState nq h, none) := by
  intro h
  induction h with
  | zero =>
      intro _
      rw [orchInit_eq_hadState]
      rfl
  | succ h ih =>
      intro hle
      rw [List.range_succ, List.map_append, List.map_cons, List.map_nil,
        runChecked_append_ok _ _ _ _ _ (ih (by omega)), mkHadamard_nat h,
        runChecked_cons_ok _ _ _ _ _
          (by rw [applyChecked_hadamard _ _ _ (by omega), hApply_hadState htq (by omega)])]
      rfl

lemma add_shift_lt {x y nq tq : ℕ} (hx : x < 2 ^ nq) (hy : y < 2 ^ tq) :
    x + 2 ^ nq * y < 2 ^ (nq + tq) := by
  have h1 : x + 2 ^ nq * y < 2 ^ nq * (y + 1) := by
    rw [Nat.mul_succ]
    omega
  have h2 : 2 ^ nq * (y + 1) ≤ 2 ^ nq * 2 ^ tq :=
    Nat.mul_le_mul_left _ (by omega)
  rw [pow_add]
  omega

/-- The driver's state after the first `g` controlled modular multiplications:
amplitude `(1/√2)^nq` exactly on the basis indices whose target field holds
`base^(x mod 2^g) mod md` for their control value `x`, and 0 elsewhere. -/
def cmmState (base md nq tq g : ℕ) : Amps := fun i =>
  if i < 2 ^ (nq + tq) ∧ i / 2 ^ nq = base ^ (i % 2 ^ nq % 2 ^ g) % md then
    (invSqrt2 : ℂ) ^ nq
  else 0

lemma div_pow_eq_one_lt {nq tq i : ℕ} (htq : 1 ≤ tq) (hd : i / 2 ^ nq = 1) :
    i < 2 ^ (nq + tq) := by
  have hdm := Nat.div_add_mod i (2 ^ nq)
  rw [hd, mul_one] at hdm
  have h3 : i % 2 ^ nq < 2 ^ nq := Nat.mod_lt _ (Nat.two_pow_pos nq)
  have h4 : 2 ^ nq * 2 ≤ 2 ^ (nq + tq) := by
    rw [pow_add]
    have h5 : (2 : ℕ) ≤ 2 ^ tq := by
      calc (2 : ℕ) = 2 ^ 1 := (pow_one 2).symm
        _ ≤ 2 ^ tq := Nat.pow_le_pow_right (by norm_num) htq
    exact Nat.mul_le_mul_left _ h5
  omega

lemma hadState_eq_cmmState0 (base md nq tq : ℕ) (hmd : 2 ≤ md) (htq : 1 ≤ tq) :
    hadState nq nq = cmmState base md nq tq 0 := by
  funext i
  unfold hadState cmmState
  have hx : i % 2 ^ nq < 2 ^ nq := Nat.mod_lt _ (Nat.two_pow_pos nq)
  have hval : base ^ (i % 2 ^ nq % 2 ^ 0) % md = 1 := by
    rw [pow_zero, Nat.mod_one, pow_zero, Nat.mod_eq_of_lt (by omega)]
  rw [hval]
  by_cases hd : i / 2 ^ nq = 1
  · rw [if_pos ⟨hd, hx⟩, if_pos ⟨div_pow_eq_one_lt htq hd, hd⟩]
  · rw [if_neg (fun hc => hd hc.1), if_neg (fun hc => hd hc.2)]

lemma cmm_stage_step (base md nq tq g : ℕ)
    (hmd : 2 ≤ md) (hcop : Nat.Coprime base md) (htq : 1 ≤ tq)
    (hfit : md ≤ 2 ^ tq) (hamend : 2 ^ tq ≤ md + 1) (hg : g < nq) :
    cmmApply (nq + tq) g nq tq (powersOf base md g) md (cmmState base md nq tq g) =
      cmmState base md nq tq (g + 1) := by
  funext j
  have hpcop : Nat.Coprime (powersOf base md g) md := powersOf_coprime hcop g
  unfold cmmApply
  by_cases hj : j < 2 ^ (nq + tq)
  · rw [if_pos hj, cmmWrites_char]
    obtain ⟨hxlt, hdlt, hdecomp⟩ := decomp_div_mod nq tq j hj
    have hsrc : ∀ i, i < 2 ^ (nq + tq) →
        (cmmDest nq tq (powersOf base md g) md i = j ↔
          i % 2 ^ nq = j % 2 ^ nq ∧
            powersOf base md g * (i / 2 ^ nq) % md = j / 2 ^ nq) := by
      intro i hi
      rw [cmmDest_decompose hi]
      obtain ⟨hxi, hdi, hdei⟩ := decomp_div_mod nq tq i hi
      constructor
      · intro he
        constructor
        · have h1 := congrArg (fun z => z % 2 ^ nq) he
          simpa [Nat.add_mul_mod_self_left, Nat.mod_eq_of_lt hxi] using h1
        · have h1 := congrArg (fun z => z / 2 ^ nq) he
          simpa [Nat.add_mul_div_left _ _ (Nat.two_pow_pos nq),
            Nat.div_eq_of_lt hxi] using h1
      · rintro ⟨h1, h2⟩
        rw [h1, h2]
        exact hdecomp.symm
    have hmemf : ∀ i, i < 2 ^ (nq + tq) →
        (i &&& 1 <<< g ≠ 0) → cmmDest nq tq (powersOf base md g) md i = j →
          i % 2 ^ nq = j % 2 ^ nq ∧
            powersOf base md g * (i / 2 ^ nq) % md = j / 2 ^ nq :=
      fun i hi _ hd => (hsrc i hi).mp hd
    by_cases hcb : j.testBit g = true
    · -- control bit of j is set
      have hxbit : (j % 2 ^ nq).testBit g = true := by
        rw [testBit_mod_high hg]
        exact hcb
      have hf_cop : Nat.Coprime (base ^ (j % 2 ^ nq % 2 ^ g) % md) md :=
        coprime_mod_of_coprime _ (Nat.Coprime.pow_left _ hcop)
      have hf_lt : base ^ (j % 2 ^ nq % 2 ^ g) % md < md := Nat.mod_lt _ (by omega)
      have hf_pos : 0 < base ^ (j % 2 ^ nq % 2 ^ g) % md :=
        coprime_pos_residue hmd hf_cop hf_lt
      have hg1val : base ^ (j % 2 ^ nq % 2 ^ (g + 1)) % md =
          powersOf base md g * (base ^ (j % 2 ^ nq % 2 ^ g) % md) % md :=
        modexp_step_set hxbit
      by_cases hdeq : j / 2 ^ nq =
          powersOf base md g * (base ^ (j % 2 ^ nq % 2 ^ g) % md) % md
      · -- the destination carries the new residue: unique source found
        have hi0lt : j % 2 ^ nq + 2 ^ nq * (base ^ (j % 2 ^ nq % 2 ^ g) % md) <
            2 ^ (nq + tq) := add_shift_lt hxlt (lt_of_lt_of_le hf_lt hfit)
        have hi0mod : (j % 2 ^ nq + 2 ^ nq * (base ^ (j % 2 ^ nq % 2 ^ g) % md)) %
            2 ^ nq = j % 2 ^ nq := by
          rw [Nat.add_mul_mod_self_left, Nat.mod_eq_of_lt hxlt]
        have hi0div : (j % 2 ^ nq + 2 ^ nq * (base ^ (j % 2 ^ nq % 2 ^ g) % md)) /
            2 ^ nq = base ^ (j % 2 ^ nq % 2 ^ g) % md := by
          rw [Nat.add_mul_div_left _ _ (Nat.two_pow_pos nq), Nat.div_eq_of_lt hxlt,
            Nat.zero_add]
        have hi0cond : (j % 2 ^ nq + 2 ^ nq * (base ^ (j % 2 ^ nq % 2 ^ g) % md)) &&&
            1 <<< g ≠ 0 := by
          rw [and_one_shiftLeft]
          rw [← testBit_mod_high hg, hi0mod, testBit_mod_high hg]
          exact hcb
        have hi0dest : cmmDest nq tq (powersOf base md g) md
            (j % 2 ^ nq + 2 ^ nq * (base ^ (j % 2 ^ nq % 2 ^ g) % md)) = j := by
          rw [hsrc _ hi0lt]
          exact ⟨hi0mod, by rw [hi0div, ← hdeq]⟩
        have huniq : ∀ i, i < 2 ^ (nq + tq) → i &&& 1 <<< g ≠ 0 →
            cmmDest nq tq (powersOf base md g) md i = j →
              i = j % 2 ^ nq + 2 ^ nq * (base ^ (j % 2 ^ nq % 2 ^ g) % md) := by
          intro i hi hic hde
          obtain ⟨h1, h2⟩ := hmemf i hi hic hde
          obtain ⟨hxi, hdi, hdei⟩ := decomp_div_mod nq tq i hi
          have hmodeq : (i / 2 ^ nq) % md = (base ^ (j % 2 ^ nq % 2 ^ g) % md) % md := by
            have hcc : powersOf base md g * (i / 2 ^ nq) ≡
                powersOf base md g * (base ^ (j % 2 ^ nq % 2 ^ g) % md) [MOD md] := by
              show _ % md = _ % md
              rw [h2]
              exact hdeq
            exact Nat.ModEq.cancel_left_of_coprime hpcop.symm hcc
          rw [Nat.mod_eq_of_lt hf_lt] at hmodeq
          have hdi_le : i / 2 ^ nq ≤ md := by omega
          have hdi_eq : i / 2 ^ nq = base ^ (j % 2 ^ nq % 2 ^ g) % md := by
            rcases (by omega : i / 2 ^ nq < md ∨ i / 2 ^ nq = md) with hh | hh
            · rw [← Nat.mod_eq_of_lt hh]
              exact hmodeq
            · rw [hh, Nat.mod_self] at hmodeq
              exact absurd hmodeq.symm (Nat.pos_iff_ne_zero.mp hf_pos)
          rw [hdei, h1, hdi_eq]
        rw [cmmHit_eq_some hi0lt hi0cond hi0dest
          (fun i hi hic hde => huniq i hi hic hde)]
        show cmmState base md nq tq g _ = _
        unfold cmmState
        rw [if_pos ⟨hi0lt, by rw [hi0div, hi0mod]⟩,
          if_pos ⟨hj, by rw [hg1val, ← hdeq]⟩]
      · -- the destination does not carry the new residue: amplitude 0
        have hrhs : cmmState base md nq tq (g + 1) j = 0 := by
          unfold cmmState
          rw [if_neg ?_]
          rintro ⟨h1, h2⟩
          rw [hg1val] at h2
          exact hdeq h2
        rw [hrhs]
        rcases hhit : cmmHit g nq tq (powersOf base md g) md j (2 ^ (nq + tq))
          with _ | i
        · -- no source writes j: start amplitude of j must be 0
          show cmmState base md nq tq g j = 0
          unfold cmmState
          rw [if_neg ?_]
          rintro ⟨h1, h2⟩
          -- j holds the old residue; then a source exists, contradiction
          obtain ⟨y0, hy0lt, hy0⟩ := exists_mul_mod_eq
            (by omega) hpcop (show j / 2 ^ nq < md by rw [h2]; exact hf_lt)
          have hi1lt : j % 2 ^ nq + 2 ^ nq * y0 < 2 ^ (nq + tq) :=
            add_shift_lt hxlt (lt_of_lt_of_le hy0lt hfit)
          have hi1mod : (j % 2 ^ nq + 2 ^ nq * y0) % 2 ^ nq = j % 2 ^ nq := by
            rw [Nat.add_mul_mod_self_left, Nat.mod_eq_of_lt hxlt]
          have hi1div : (j % 2 ^ nq + 2 ^ nq * y0) / 2 ^ nq = y0 := by
            rw [Nat.add_mul_div_left _ _ (Nat.two_pow_pos nq), Nat.div_eq_of_lt hxlt,
              Nat.zero_add]
          have hi1cond : (j % 2 ^ nq + 2 ^ nq * y0) &&& 1 <<< g ≠ 0 := by
            rw [and_one_shiftLeft, ← testBit_mod_high hg, hi1mod, testBit_mod_high hg]
            exact hcb
          have hi1dest : cmmDest nq tq (powersOf base md g) md
              (j % 2 ^ nq + 2 ^ nq * y0) = j := by
            rw [hsrc _ hi1lt]
            exact ⟨hi1mod, by rw [hi1div, hy0]⟩
          exact cmmHit_none_spec hhit _ hi1lt hi1cond hi1dest
        · -- the winning source carried amplitude 0
          obtain ⟨hiN, hic, hide⟩ := cmmHit_spec hhit
          obtain ⟨h1, h2⟩ := hmemf i hiN hic hide
          show cmmState base md nq tq g i = 0
          unfold cmmState
          rw [if_neg ?_]
          rintro ⟨hh1, hh2⟩
          rw [h1] at hh2
          rw [hh2] at h2
          exact hdeq h2.symm
    · -- control bit of j is clear: nothing is written at j
      have hnone : cmmHit g nq tq (powersOf base md g) md j (2 ^ (nq + tq)) = none := by
        apply cmmHit_eq_none
        intro i hi hic hde
        have h1 : i.testBit g = true := (and_one_shiftLeft i g).mp hic
        have hx_eq := ((hsrc i hi).mp hde).1
        apply hcb
        rw [← testBit_mod_high hg, ← hx_eq, testBit_mod_high hg]
        exact h1
      rw [hnone]
      have hxbit : (j % 2 ^ nq).testBit g = false := by
        rw [testBit_mod_high hg]
        exact Bool.eq_false_iff.mpr hcb
      show cmmState base md nq tq g j = cmmState base md nq tq (g + 1) j
      unfold cmmState
      rw [modexp_step_clear hxbit]
  · rw [if_neg hj]
    show cmmState base md nq tq g j = cmmState base md nq tq (g + 1) j
    unfold cmmState
    rw [if_neg (fun hc => hj hc.1), if_neg (fun hc => hj hc.1)]

lemma powersOf_lt {base md : ℕ} (hmd : 0 < md) (g : ℕ) : powersOf base md g < md := by
  rw [powersOf_val]
  exact Nat.mod_lt _ hmd

lemma applyChecked_cmm_stage (base md nq tq g : ℕ)
    (hmd : 2 ≤ md) (hcop : Nat.Coprime base md) (htq : 1 ≤ tq)
    (hfit : md ≤ 2 ^ tq) (hamend : 2 ^ tq ≤ md + 1) (hg : g < nq) :
    applyChecked (.cmm g nq tq (powersOf base md g) md) (nq + tq)
        (cmmState base md nq tq g) =
      (cmmState base md nq tq (g + 1), none) := by
  simp only [applyChecked]
  rw [if_neg (by omega), if_neg (by omega),
    cmm_stage_step base md nq tq g hmd hcop htq hfit hamend hg]

lemma cmm_stage (base md nq tq : ℕ)
    (hmd : 2 ≤ md) (hcop : Nat.Coprime base md) (htq : 1 ≤ tq)
    (hfit : md ≤ 2 ^ tq) (hamend : 2 ^ tq ≤ md + 1) :
    ∀ g, g ≤ nq →
      runChecked (nq + tq)
        ((List.range g).map
          (fun i => mkCMM (i : ℕ) (nq : ℕ) (tq : ℕ) (powersOf base md i) md))
        (cmmState base md nq tq 0) = (cmmState base md nq tq g, none) := by
  intro g
  induction g with
  | zero =>
    intro _
    rw [List.range_zero, List.map_nil, runChecked_nil]
  | succ m ih =>
    intro hm
    rw [List.range_succ, List.map_append, List.map_cons, List.map_nil,
      runChecked_append_ok _ _ _ _ _ (ih (by omega))]
    have hplt : powersOf base md m < md := powersOf_lt (by omega) m
    have hppos : 0 < powersOf base md m :=
      coprime_pos_residue hmd (powersOf_coprime hcop m) hplt
    rw [mkCMM_nat m nq tq (powersOf base md m) md (by omega) (by omega) (by omega)
        (by omega),
      runChecked_cons_ok _ _ _ _ _
        (applyChecked_cmm_stage base md nq tq m hmd hcop htq hfit hamend (by omega)),
      runChecked_nil]

lemma orch_run_eq (base md nq : ℕ) (hmd : 2 ≤ md) (hcop : Nat.Coprime base md)
    (hamend : 2 ^ targetQubitsOf md ≤ md + 1) :
    orchRun base md nq = (cmmState base md nq (targetQubitsOf md) nq, none) := by
  obtain ⟨htq, hfit⟩ := targetQubits_facts hmd
  unfold orchRun orchGateList
  rw [runChecked_append_ok _ _ _ _ _ (had_stage nq (targetQubitsOf md) htq nq le_rfl),
    hadState_eq_cmmState0 base md nq (targetQubitsOf md) hmd htq]
  exact cmm_stage base md nq (targetQubitsOf md) hmd hcop htq hfit hamend nq le_rfl

/-- C3 (amended).  For valid driver inputs (positive coprime base, `1 ≤ num_qubits ≤ 10`,
`modulus < 1024`) that additionally satisfy `2 ≤ modulus` and
`2^targetQubits ≤ modulus + 1`: the run raises no error and in the final state, for
every control value `x`, the basis state with control `x` and target
`base^x mod modulus` (index `(y << num_qubits) | x` as read out by `main`) has
probability exactly `1/2^num_qubits`, while every other target value `y` paired with
control `x` has amplitude 0. -/
theorem c3_orchestrator (base md nq : ℕ) (hbase : 0 < base)
    (hcop : Nat.gcd base md = 1) (hnq1 : 1 ≤ nq) (hnq10 : nq ≤ 10)
    (hmd1024 : md < 1024) (hmd : 2 ≤ md)
    (hamend : 2 ^ targetQubitsOf md ≤ md + 1) :
    (orchRun base md nq).2 = none ∧
    ∀ x, x < 2 ^ nq →
      Complex.normSq ((orchRun base md nq).1 ((base ^ x % md) <<< nq ||| x)) =
          (1 / 2 : ℝ) ^ nq ∧
        ∀ y, y < 2 ^ targetQubitsOf md → y ≠ base ^ x % md →
          (orchRun base md nq).1 (y <<< nq ||| x) = 0 := by
  obtain ⟨htq, hfit⟩ := targetQubits_facts hmd
  have horch := orch_run_eq base md nq hmd hcop hamend
  refine ⟨by rw [horch], ?_⟩
  intro x hx
  have hmlt : base ^ x % md < md := Nat.mod_lt _ (by omega)
  constructor
  · have hidx1 : (base ^ x % md) <<< nq ||| x = x + 2 ^ nq * (base ^ x % md) := by
      rw [Nat.lor_comm, lor_shift_eq_add _ nq hx]
    have hval1 : (orchRun base md nq).1 ((base ^ x % md) <<< nq ||| x) =
        (invSqrt2 : ℂ) ^ nq := by
      rw [horch, hidx1]
      show cmmState base md nq (targetQubitsOf md) nq (x + 2 ^ nq * (base ^ x % md)) = _
      unfold cmmState
      rw [if_pos ⟨add_shift_lt hx (lt_of_lt_of_le hmlt hfit), by
        rw [Nat.add_mul_div_left _ _ (Nat.two_pow_pos nq), Nat.div_eq_of_lt hx,
          Nat.zero_add, Nat.add_mul_mod_self_left, Nat.mod_eq_of_lt hx,
          Nat.mod_eq_of_lt hx]⟩]
    rw [hval1, map_pow, normSq_invSqrt2]
  · intro y hy hne
    have hidx2 : y <<< nq ||| x = x + 2 ^ nq * y := by
      rw [Nat.lor_comm, lor_shift_eq_add _ nq hx]
    rw [horch, hidx2]
    show cmmState base md nq (targetQubitsOf md) nq (x + 2 ^ nq * y) = 0
    unfold cmmState
    rw [if_neg ?_]
    rintro ⟨h1, h2⟩
    rw [Nat.add_mul_div_left _ _ (Nat.two_pow_pos nq), Nat.div_eq_of_lt hx,
      Nat.zero_add, Nat.add_mul_mod_self_left, Nat.mod_eq_of_lt hx,
      Nat.mod_eq_of_lt hx] at h2
    exact hne h2

/-- C3 (amended, witness).  The flagship order-finding instance `base = 7`,
`modulus = 15` (where `targetQubits = 4` and `2^4 = 15 + 1`) with one control qubit
satisfies the amended claim. -/
theorem c3_orchestrator_witness :
    (orchRun 7 15 1).2 = none ∧
    ∀ x, x < 2 ^ 1 →
      Complex.normSq ((orchRun 7 15 1).1 ((7 ^ x % 15) <<< 1 ||| x)) =
          (1 / 2 : ℝ) ^ 1 ∧
        ∀ y, y < 2 ^ targetQubitsOf 15 → y ≠ 7 ^ x % 15 →
          (orchRun 7 15 1).1 (y <<< 1 ||| x) = 0 :=
  c3_orchestrator 7 15 1 (by norm_num) (by norm_num) le_rfl (by norm_num)
    (by norm_num) (by norm_num)
    (by
      have h1 : Nat.size 14 ≤ 4 := Nat.size_le.mpr (by norm_num)
      have h2 : 3 < Nat.size 14 := Nat.lt_size.mpr (by norm_num)
      have hs : Nat.size 14 = 4 := by omega
      unfold targetQubitsOf
      norm_num [hs])

/-- C3 (counterexample).  `base = 2`, `modulus = 5`, one control qubit: every validity
condition of the claim holds (positive coprime base, `1 ≤ num_qubits ≤ 10`,
`modulus < 1024`) and the run raises no error, yet the basis state with control 1 and
target `2^1 mod 5 = 2` — which the claim gives probability `1/2` — has probability 0:
its amplitude is overwritten by the colliding zero-amplitude source index 13 of the
ascending write loop (`targetQubits = 3` and `2^3 > 5 + 1`, so target values `6` and
`2` collide under the multiplication map). -/
theorem c3_orchestrator_counterexample :
    (0 < 2 ∧ 0 < 5 ∧ Nat.gcd 2 5 = 1 ∧ 1 ≤ 1 ∧ (1 : ℕ) ≤ 10 ∧ (5 : ℕ) < 1024) ∧
    (orchRun 2 5 1).2 = none ∧
    Complex.normSq ((orchRun 2 5 1).1 ((2 ^ 1 % 5) <<< 1 ||| 1)) = 0 ∧
    (1 / 2 : ℝ) ^ 1 ≠ 0 := by
  have hs : Nat.size 4 = 3 := by
    have h1 : Nat.size 4 ≤ 3 := Nat.size_le.mpr (by norm_num)
    have h2 : 2 < Nat.size 4 := Nat.lt_size.mpr (by norm_num)
    omega
  have htq : targetQubitsOf 5 = 3 := by
    unfold targetQubitsOf
    norm_num [hs]
  have hrun : orchRun 2 5 1 = (cmmApply (1 + 3) 0 1 3 2 5 (hadState 1 1), none) := by
    unfold orchRun orchGateList
    rw [htq,
      runChecked_append_ok _ _ _ _ _ (had_stage 1 3 (by norm_num) 1 le_rfl),
      show List.range 1 = [0] by decide, List.map_cons, List.map_nil,
      show powersOf 2 5 0 = 2 from rfl,
      mkCMM_nat 0 1 3 2 5 (by norm_num) (by norm_num) (by norm_num) (by omega)]
    have hap : applyChecked (.cmm 0 1 3 2 5) (1 + 3) (hadState 1 1) =
        (cmmApply (1 + 3) 0 1 3 2 5 (hadState 1 1), none) := by
      simp only [applyChecked]
      rw [if_neg (by omega), if_neg (by omega)]
    rw [runChecked_cons_ok _ _ _ _ _ hap, runChecked_nil]
  refine ⟨⟨by norm_num, by norm_num, by norm_num, le_rfl, by norm_num, by norm_num⟩,
    by rw [hrun], ?_, by norm_num⟩
  rw [hrun]
  show Complex.normSq (cmmApply (1 + 3) 0 1 3 2 5 (hadState 1 1)
    ((2 ^ 1 % 5) <<< 1 ||| 1)) = 0
  have hidx : (2 ^ 1 % 5) <<< 1 ||| 1 = 5 := by decide
  rw [hidx]
  have hhit : cmmHit 0 1 3 2 5 5 (2 ^ (1 + 3)) = some 13 := by decide
  unfold cmmApply
  rw [if_pos (by norm_num), cmmWrites_char, hhit]
  show Complex.normSq (hadState 1 1 13) = 0
  unfold hadState
  rw [if_neg (by decide)]
  exact Complex.normSq_zero

/-- C10 (amended).  For each of the seven primitive gate types, `apply` performs all
of its index validation before mutating any amplitude, so whenever it fails the
store's amplitude vector is exactly the one before the call. -/
theorem c10_primitive_fail_no_mutation (g : PrimGate) (n : ℕ) (a : Amps) (e : SimErr)
    (h : (applyChecked g n a).2 = some e) : (applyChecked g n a).1 = a := by
  cases g with
  | cmm c ts tc mult md =>
      simp only [applyChecked] at h ⊢
      split at h
      · simp_all
      · split at h <;> simp_all
  | _ =>
      simp only [applyChecked] at h ⊢
      split at h <;> simp_all

/-- Witness for C10: a Hadamard on qubit 5 of a 2-qubit store fails and leaves the
store untouched. -/
theorem c10_primitive_fail_no_mutation_witness :
    (applyChecked (.hadamard 5) 2 (delta 0)).1 = delta 0 :=
  c10_primitive_fail_no_mutation (.hadamard 5) 2 (delta 0) .invalidArgument rfl

/-- Counterexample to C10 as stated: the Equality Comparator with overlapping
registers A and B (both at qubit 0, one bit) on a 3-qubit store passes its extent
validation, applies the X gate that initializes the result chain, and only then
raises InvalidArgument from the CNOT constructor — leaving the store mutated
(amplitude moved from index 0 to index 2). -/
theorem c10_composite_counterexample :
    (compApply 0 0 1 1 3 (delta 0)).2 = some .invalidArgument ∧
    (compApply 0 0 1 1 3 (delta 0)).1 2 = 1 ∧
    delta 0 2 = 0 := by
  refine ⟨rfl, ?_, rfl⟩
  show xApply 3 1 (delta 0) 2 = 1
  rfl

end
